import Mathlib

/-!
Shallow embedding of the pathfinding / routing / collision core of the
ACROSS tower-defense repository (`src/pathfind.rs`, `src/path.rs`,
`src/collisions.rs`, `src/tower.rs`, `src/vector.rs`).

Modelling conventions:
* `f32` values are modelled as real numbers (`ℝ`); exact real arithmetic,
  so rounding, overflow and NaN are out of scope except where noted.
* `usize` and `NodeIndex` are modelled as `Nat` (the `NodeIndex` newtype
  wrapper adds no behaviour).
* Rust panics that are reachable from the modelled entry points (failed
  `unwrap`, failed `assert!`, out-of-bounds `Vec` indexing) are modelled by
  `Option`-style results with a dedicated "panic" value, as documented on
  each definition.  List indexing that is provably in bounds on every
  modelled execution is rendered with `List.getD`.
* Loops are modelled with explicit fuel; the fuel bounds are chosen large
  enough that running out of fuel coincides exactly with the source loop
  not terminating (see the comments on `astarGo` and `reconstructGo`).
-/

namespace Across

open scoped Classical

noncomputable section

/-- Model of `Vector` (`src/vector.rs`): a 2D point with two `f32`
coordinates, here real numbers. -/
structure Vector where
  x : ℝ
  y : ℝ

instance : Inhabited Vector := ⟨⟨0, 0⟩⟩

/-- Componentwise `+` (`impl Add for Vector`). -/
instance : Add Vector := ⟨fun a b => ⟨a.x + b.x, a.y + b.y⟩⟩

/-- Componentwise `-` (`impl Sub for Vector`). -/
instance : Sub Vector := ⟨fun a b => ⟨a.x - b.x, a.y - b.y⟩⟩

/-- Scaling `v * s` (`impl Mul<f32> for Vector`). -/
instance : HMul Vector ℝ Vector := ⟨fun v s => ⟨v.x * s, v.y * s⟩⟩

/-- Model of `Vector::length`: `(x*x + y*y).sqrt()`. -/
def Vector.length (v : Vector) : ℝ := Real.sqrt (v.x * v.x + v.y * v.y)

/-- Model of `Vector::sqr_length`: `x*x + y*y`. -/
def Vector.sqr_length (v : Vector) : ℝ := v.x * v.x + v.y * v.y

/-- Model of Rust `f32::signum` for non-NaN inputs: `1.0` for positive
numbers and `+0.0`, `-1.0` for negative numbers.  (`-0.0` has no separate
representation in `ℝ`.) -/
def signumf (x : ℝ) : ℝ := if x < 0 then -1 else 1

/-- Model of Rust `%` on floats: `x - y * trunc (x / y)` (remainder with
the quotient truncated toward zero). -/
def fRem (x y : ℝ) : ℝ :=
  x - y * (if 0 ≤ x / y then ((⌊x / y⌋ : ℤ) : ℝ) else ((⌈x / y⌉ : ℤ) : ℝ))

/-- The wrap-around step of `shortest_angle_distance` applied to the
already-reduced `distance` value. -/
def sadCore (d : ℝ) : ℝ :=
  if |d| > Real.pi then (2 * Real.pi - |d|) * (-(signumf d)) else d

/-- Model of `shortest_angle_distance` (`src/tower.rs`): signed shortest
angle between two angles. -/
def shortest_angle_distance (theta1 theta2 : ℝ) : ℝ :=
  let distance :=
    if theta2 > theta1 then fRem (theta2 - theta1) (2 * Real.pi)
    else fRem (theta1 - theta2) (2 * Real.pi)
  sadCore distance * signumf (theta2 - theta1)

/-- Model of `QuadraticSolution` (`src/collisions.rs`). -/
inductive QuadraticSolution
  | NoRoots
  | RepeatedRoot (x : ℝ)
  | Roots (x1 x2 : ℝ)

/-- Model of `impl IntoIterator for QuadraticSolution`. -/
def QuadraticSolution.toList : QuadraticSolution → List ℝ
  | .NoRoots => []
  | .RepeatedRoot x => [x]
  | .Roots a b => [a, b]

/-- Model of `quadratic` (`src/collisions.rs`): real-root classification of
`ax² + bx + c`, with exact comparison of the discriminant against zero. -/
def quadratic (a b c : ℝ) : QuadraticSolution :=
  let discriminant := b * b - 4 * a * c
  if discriminant > 0 then
    .Roots ((-b + Real.sqrt discriminant) / (2 * a)) ((-b - Real.sqrt discriminant) / (2 * a))
  else if discriminant = 0 then .RepeatedRoot (-b / (2 * a))
  else .NoRoots

/-- Model of `LineCircleCollision` (`src/collisions.rs`).  The enum's own
doc comment: "a line fully enclosed by a circle is represented with
`LineCircleCollision::None`". -/
inductive LineCircleCollision
  | None
  | One (p : Vector)
  | Two (p q : Vector)

/-- Model of `LineCircleCollision::from_vec`. -/
def LineCircleCollision.from_vec : List Vector → Option LineCircleCollision
  | [] => some .None
  | [a] => some (.One a)
  | [a, b] => some (.Two a b)
  | _ => none

/-- Model of `point_circle_collision`: the point iff
`|p - centre|² ≤ radius²`. -/
def point_circle_collision (centre : Vector) (radius : ℝ) (p : Vector) : Option Vector :=
  if (p - centre).sqr_length ≤ radius * radius then some p else none

/-- The root filter `x >= a.x.min(b.x) && x <= a.x.max(b.x)` applied inside
`line_circle_collision` (source: an iterator `filter`). -/
def keepInRange (lo hi : ℝ) : List ℝ → List ℝ
  | [] => []
  | x :: rest => if lo ≤ x ∧ x ≤ hi then x :: keepInRange lo hi rest else keepInRange lo hi rest

/-- The `collisions` vector accumulated by `line_circle_collision`
(`src/collisions.rs` lines 51-87), before the `assert!(collisions.len() <= 2)`.
The source pushes each endpoint lying inside the circle, then (for a
non-vertical segment, i.e. `m = (b.y-a.y)/(b.x-a.x)` finite, which for finite
inputs means `b.x ≠ a.x`) appends the quadratic's x-roots that fall in the
segment's x-range, or (vertical segment) both circle points at `x = a.x`
without any y-range filter. -/
def lineCircleCollisionPoints (centre : Vector) (radius : ℝ) (a b : Vector) : List Vector :=
  let endpointHits :=
    (if (a - centre).sqr_length ≤ radius * radius then [a] else []) ++
    (if (b - centre).sqr_length ≤ radius * radius then [b] else [])
  if b.x = a.x then
    let x := a.x
    let dySq := radius * radius - (x - centre.x) * (x - centre.x)
    endpointHits ++
      (if 0 ≤ dySq then [⟨x, centre.y + Real.sqrt dySq⟩, ⟨x, centre.y - Real.sqrt dySq⟩] else [])
  else
    let m := (b.y - a.y) / (b.x - a.x)
    let c := b.y - m * b.x
    let roots := quadratic (1 + m * m) (2 * (m * (c - centre.y) - centre.x))
      (centre.x * centre.x + (c - centre.y) * (c - centre.y) - radius * radius)
    endpointHits ++ (keepInRange (min a.x b.x) (max a.x b.x) roots.toList).map fun x => ⟨x, m * x + c⟩

/-- Model of `line_circle_collision`.  `none` models the panic: the source
asserts `collisions.len() <= 2` and then unwraps `from_vec`, so a collision
list longer than 2 panics. -/
def line_circle_collision (centre : Vector) (radius : ℝ) (a b : Vector) :
    Option LineCircleCollision :=
  let pts := lineCircleCollisionPoints centre radius a b
  if pts.length ≤ 2 then LineCircleCollision.from_vec pts else none

/-- Model of `Route` (`src/path.rs`): an ordered point list plus the
precomputed total polyline length. -/
structure Route where
  points : List Vector
  length : ℝ

/-- The fold computing a polyline's length in `Route::new` /
`Route::from_positions_unchecked`: sum of consecutive segment lengths. -/
def polyLen (ps : List Vector) : ℝ :=
  (ps.zip ps.tail).foldl (fun acc q => acc + (q.2 - q.1).length) 0

/-- Model of `Route::from_positions_unchecked`. -/
def Route.from_positions_unchecked (positions : List Vector) : Route :=
  ⟨positions, polyLen positions⟩

/-- Rust `progress.clamp(0.0, 1.0)` as used by `Route::get_position`. -/
def clamp01 (p : ℝ) : ℝ := min (max p 0) 1

/-- Outcome of the `get_position` loop body.  `nanEscape` marks the runs in
which the `f32` source's division by a zero normalized segment length makes
NaN coordinates escape to the caller; `fellThrough` marks the loop ending
without returning (the source then returns the final point). -/
inductive GetPosResult
  | nanEscape
  | point (v : Vector)
  | fellThrough

/-- Turns a loop outcome into the function's result, `none` for an escaped
NaN and the final point for a fall-through. -/
def GetPosResult.resolve : GetPosResult → Vector → Option Vector
  | .nanEscape, _ => none
  | .point v, _ => some v
  | .fellThrough, lastPt => some lastPt

/-- The iteration of `Route::get_position` over consecutive point pairs:
each pair contributes normalized length `d = dist / L`, and the loop
returns the interpolated point `a + (b - a) * ((progress - pm) / d)` in the
first segment where `pm + d ≥ progress`.  The `f32` division cases are made
explicit:
* `dist = 0` and `L = 0`: `d` is NaN (`0.0/0.0`), so this comparison and —
  since `progress_made += d` — every later one is false: the loop falls
  through to the final point.
* `dist ≠ 0` and `L = 0`: `d = +∞`, the branch is taken and the
  interpolation scalar `(progress - pm)/+∞` is `±0`, returning the segment
  start (unreachable through `Route.get_position`, whose `L` is the sum of
  the `dist`s).
* `L ≠ 0` and `dist = 0` with the branch taken: the scalar is
  `(progress - pm)/0.0`, i.e. NaN or `±∞`, and `(b - a) * scalar` with
  `b = a` is NaN in every case: NaN coordinates escape (`nanEscape`).
* `L ≠ 0` and `dist ≠ 0`: ordinary real arithmetic. -/
def getPosLoop (L progress : ℝ) : ℝ → List (Vector × Vector) → GetPosResult
  | _, [] => .fellThrough
  | pm, (a, b) :: rest =>
    if (b - a).length = 0 ∧ L = 0 then .fellThrough
    else if L = 0 then .point a
    else
      let d := (b - a).length / L
      if pm + d ≥ progress then
        if (b - a).length = 0 then .nanEscape
        else .point (a + (b - a) * ((progress - pm) / d))
      else getPosLoop L progress (pm + d) rest

/-- Model of `Route::get_position` (`src/path.rs` lines 83-100).  `none`
models a returned vector with NaN coordinates (see `getPosLoop`).  The
final fallback `self.points[self.points.len() - 1]` is a `getD` here; it
panics in the source only for an empty point list, which `Route::new`
rejects and `from_positions_unchecked` documents as a caller obligation. -/
def Route.get_position (r : Route) (progress : ℝ) : Option Vector :=
  let p := clamp01 progress
  (getPosLoop r.length p 0 (r.points.zip r.points.tail)).resolve
    (r.points.getLast?.getD default)

/-- Spec-modelled arc-length parameterization of a polyline (from the spec's
words in §4.3: "returns the linear interpolation within the segment where
cumulative length first reaches `progress * total_length`").  Used only to
state the refinement/monotonicity part of the `get_position` claim; it is
compared against the source-derived `Route.get_position`. -/
def pointAtArcSpec : List Vector → ℝ → Vector
  | [], _ => default
  | [a], _ => a
  | a :: b :: rest, s =>
    let d := (b - a).length
    if s ≤ d then a + (b - a) * (s / d) else pointAtArcSpec (b :: rest) (s - d)

/-- Model of `Node` (`src/pathfind.rs`): position plus A* bookkeeping. -/
structure Node where
  position : Vector
  g_cost : Option ℝ
  h_cost : Option ℝ
  parent : Option Nat

instance : Inhabited Node := ⟨⟨default, none, none, none⟩⟩

/-- Model of `Node::new`.  Note the source initializes `g_cost` to
`0.0.into()`, i.e. `Some(0.0)` — not `None`. -/
def Node.new (position : Vector) : Node := ⟨position, some 0, none, none⟩

/-- Model of `Connection` (`src/pathfind.rs`): a directed weighted edge.
The source's `end` field is called `stop` here (`end` is a Lean keyword). -/
structure Connection where
  start : Nat
  stop : Nat
  weight : ℝ

instance : Inhabited Connection := ⟨⟨0, 0, 0⟩⟩

/-- Model of `Node::h_cost_calculate`: returns the memoized `h_cost`, or
computes, caches and returns the straight-line distance to `target`. -/
def Node.h_cost_calculate (n : Node) (target : Node) : ℝ × Node :=
  match n.h_cost with
  | some h => (h, n)
  | none =>
    ((target.position - n.position).length,
     { n with h_cost := some ((target.position - n.position).length) })

/-- The `connections.iter().find(...)` lookup inside `Node::set_g_cost`:
first connection from `parentIdx` to `thisIdx`. -/
def findConnection (parentIdx thisIdx : Nat) : List Connection → Option Connection
  | [] => none
  | c :: rest =>
    if c.start = parentIdx ∧ c.stop = thisIdx then some c
    else findConnection parentIdx thisIdx rest

/-- Model of `Node::set_g_cost`: sets `parent` and
`g_cost = parent.g_cost + weight(parentIdx → thisIdx)`.  The source unwraps
the connection lookup and `parent.g_cost`; both are rendered with `getD`
(the lookup always succeeds because the neighbour came from the connection
list, and every node's `g_cost` is `Some` from construction on). -/
def Node.set_g_cost (n parentNode : Node) (parentIdx thisIdx : Nat)
    (conns : List Connection) : Node :=
  { n with
    parent := some parentIdx,
    g_cost := some (parentNode.g_cost.getD 0 +
      (((findConnection parentIdx thisIdx conns).map Connection.weight).getD 0)) }

/-- Model of `Node::f_cost`: `g_cost.map(|g| g + h_cost())`.  The source
panics when `g_cost` is `Some` but `h_cost` is `None`; here that case is
`none` as well.  Every node whose `f_cost` the search compares is in the
open set and has both costs set, so the difference is unobservable. -/
def Node.fCost (n : Node) : Option ℝ :=
  n.g_cost.bind fun g => n.h_cost.map fun h => g + h

/-- Model of `Pathfinder` (`src/pathfind.rs`). -/
structure Pathfinder where
  nodes : List Node
  connections : List Connection
  best_route : Option (List Node)

/-- The connection-deduplication loop of `Pathfinder::new`: pushes
`(a, b, weight(nodes[a], nodes[b]))` unless a connection with the same
ordered pair was already pushed (first occurrence's weight wins). -/
def buildConnections (positions : List Vector) (w : Vector → Vector → ℝ) :
    List (Nat × Nat) → List Connection → List Connection
  | [], acc => acc
  | (a, b) :: rest, acc =>
    if ∃ c ∈ acc, c.start = a ∧ c.stop = b then
      buildConnections positions w rest acc
    else
      buildConnections positions w rest
        (acc ++ [⟨a, b, w (positions.getD a default) (positions.getD b default)⟩])

/-- Model of `Pathfinder::new`: `None` when the position list is empty or
any connection index is out of range, otherwise the node/connection store
with no cached route. -/
def Pathfinder.new (positions : List Vector) (connections : List (Nat × Nat))
    (w : Vector → Vector → ℝ) : Option Pathfinder :=
  if positions.length = 0 ∨ ∃ q ∈ connections, positions.length ≤ q.1 ∨ positions.length ≤ q.2 then
    none
  else
    some { nodes := positions.map Node.new,
           connections := buildConnections positions w connections [],
           best_route := none }

/-- Model of `Pathfinder::recalculate_weights`: recomputes every
connection's weight from the endpoint positions and drops the cached
best route. -/
def Pathfinder.recalculate_weights (p : Pathfinder) (w : Vector → Vector → ℝ) : Pathfinder :=
  { p with
    connections := p.connections.map fun c =>
      { c with weight := w ((p.nodes.getD c.start default).position)
                           ((p.nodes.getD c.stop default).position) },
    best_route := none }

/-- Model of `Pathfinder::neighbours`: the `stop` ends of the connections
starting at `i` (the source's `filter` + `map`, fused). -/
def neighbours : List Connection → Nat → List Nat
  | [], _ => []
  | c :: rest, i =>
    if c.start = i then c.stop :: neighbours rest i else neighbours rest i

/-- Model of `Pathfinder::best_route`: the cached route's positions. -/
def Pathfinder.bestRoute (p : Pathfinder) : Option (List Vector) :=
  p.best_route.map fun l => l.map Node.position

/-- Rust's derived `PartialOrd` `<` on `Option<f32>` (for non-NaN values):
`None < Some _`, `Some a < Some b ↔ a < b`. -/
def optLt : Option ℝ → Option ℝ → Prop
  | _, none => False
  | none, some _ => True
  | some a, some b => a < b

/-- The min-selection fold of `Pathfinder::pathfind` (lines 187-198): folds
over the enumerated open list keeping the accumulator only when its
`f_cost` is strictly below the current element's (so the last minimum
wins); returns `(position in open list, node index)`. -/
def selectMinGo (nodes : List Node) : List Nat → Nat → Option (Nat × Nat) → Option (Nat × Nat)
  | [], _, acc => acc
  | el :: rest, i, acc =>
    let acc2 :=
      match acc with
      | some (j, prev) =>
        if optLt (Node.fCost (nodes.getD prev default)) (Node.fCost (nodes.getD el default))
        then some (j, prev) else some (i, el)
      | none => some (i, el)
    selectMinGo nodes rest (i + 1) acc2

/-- The min-selection fold run from the start of the open list. -/
def selectMin (nodes : List Node) (openL : List Nat) : Option (Nat × Nat) :=
  selectMinGo nodes openL 0 none

/-- One relaxation step of `Pathfinder::pathfind` (lines 216-241) for a
single neighbour `nb` of `currentIdx`: skipped when `nb` is closed;
otherwise, when `nb` has no `g_cost`, or its `g_cost` exceeds
`current.g_cost + euclidean_distance(current, nb)`, or `nb` is not in the
open list, the neighbour's parent/g_cost are rewritten from `currentIdx`
(using the connection weight), and if it was not in the open list its
`h_cost` is (lazily) computed and it is pushed. -/
def relaxOne (conns : List Connection) (target : Node) (closed : List Nat) (currentIdx : Nat)
    (st : List Node × List Nat) (nb : Nat) : List Node × List Nat :=
  if nb ∈ closed then st
  else
    let nodes := st.1
    let openL := st.2
    let currentNode := nodes.getD currentIdx default
    let nbNode := nodes.getD nb default
    let newPathG := currentNode.g_cost.getD 0 + (currentNode.position - nbNode.position).length
    let nbInOpen := nb ∈ openL
    if nbNode.g_cost = none ∨ nbNode.g_cost.getD 0 > newPathG ∨ ¬nbInOpen then
      let nodes2 := nodes.set nb (Node.set_g_cost nbNode currentNode currentIdx nb conns)
      if ¬nbInOpen then
        (nodes2.set nb (Node.h_cost_calculate (nodes2.getD nb default) target).2, openL ++ [nb])
      else (nodes2, openL)
    else st

/-- Result of the path-reconstruction `while let` loop (lines 204-210). -/
inductive RecResult
  | fuelOut
  | assertFail
  | path (l : List Node)

/-- Model of the reconstruction loop: walk `parent` pointers from `current`,
pushing each parent's node, until a node with no parent is reached; then
`assert_eq!(current, start)` (failure modelled as `assertFail`) and the
accumulated list is reversed.  A parent cycle loops forever in the source;
since parents form a function, any chain longer than the node count repeats
and hence never terminates, so fuel `nodes.length + 1` makes `fuelOut`
coincide exactly with source-level non-termination. -/
def reconstructGo (nodes : List Node) (startIdx : Nat) :
    Nat → Nat → List Node → RecResult
  | 0, _, _ => .fuelOut
  | fuel + 1, current, acc =>
    match (nodes.getD current default).parent with
    | some p => reconstructGo nodes startIdx fuel p (acc ++ [nodes.getD p default])
    | none => if current = startIdx then .path acc.reverse else .assertFail

/-- Result of the main A* `loop`. -/
inductive LoopResult
  | panicked
  | fuelOut
  | ok (nodes : List Node) (route : List Node)

/-- Model of the main `loop` of `Pathfinder::pathfind` (lines 186-243).
Each iteration pops the minimal-`f_cost` element of the open list (the
`.unwrap()` on the fold's result panics when the open list is empty:
`panicked`), appends it to the closed list, returns the reconstructed route
when it is the target, and otherwise relaxes all its neighbours.  Every
iteration grows the closed list by one element that was not in it before,
and all such elements come from `startIdx` or connection `stop`s, so with
fuel `connections.length + 2` the loop never runs out of fuel (the source
loop, equally, always terminates — by panicking if no route exists). -/
def astarGo (conns : List Connection) (target : Node) (startIdx endIdx : Nat) :
    Nat → List Node → List Nat → List Nat → LoopResult
  | 0, _, _, _ => .fuelOut
  | fuel + 1, nodes, openL, closed =>
    match selectMin nodes openL with
    | none => .panicked
    | some (ci, current) =>
      let openL2 := openL.eraseIdx ci
      let closed2 := closed ++ [current]
      if current = endIdx then
        match reconstructGo nodes startIdx (nodes.length + 1) current
            [nodes.getD current default] with
        | .fuelOut => .fuelOut
        | .assertFail => .panicked
        | .path route => .ok nodes route
      else
        let st := (neighbours conns current).foldl
          (fun st nb => relaxOne conns target closed2 current st nb) (nodes, openL2)
        astarGo conns target startIdx endIdx fuel st.1 st.2 closed2

/-- Result of `Pathfinder::pathfind`: panic, non-termination, or the
updated pathfinder (mutated nodes, cached best route) plus the route. -/
inductive PathfindOutcome
  | panicked
  | fuelOut
  | ok (p : Pathfinder) (route : List Node)

/-- Model of `Pathfinder::pathfind` (lines 177-244): seeds
`nodes[start].g_cost = Some 0`, snapshots the target node, memoizes the
start's `h_cost`, opens `[start]` and runs the main loop.  On success the
pathfinder's `best_route` is set to the reconstructed route. -/
def Pathfinder.pathfind (p : Pathfinder) (startIdx endIdx : Nat) : PathfindOutcome :=
  let nodes1 := p.nodes.set startIdx { p.nodes.getD startIdx default with g_cost := some 0 }
  let target := nodes1.getD endIdx default
  let nodes2 := nodes1.set startIdx (Node.h_cost_calculate (nodes1.getD startIdx default) target).2
  match astarGo p.connections target startIdx endIdx (p.connections.length + 2)
      nodes2 [startIdx] [] with
  | .panicked => .panicked
  | .fuelOut => .fuelOut
  | .ok finalNodes route =>
    .ok { p with nodes := finalNodes, best_route := some route } route

/-- A directed path in the connection graph: the reflexive-transitive
closure of the `neighbours` edge relation. -/
inductive Reaches (conns : List Connection) : Nat → Nat → Prop
  | refl (a : Nat) : Reaches conns a a
  | head {a b c : Nat} : b ∈ neighbours conns a → Reaches conns b c → Reaches conns a c

/-- Model of `WebCreationError` (`src/path.rs`). -/
inductive WebCreationError
  | InvalidRoute
  | InvalidEndpoints

/-- Model of `Web` (`src/path.rs`).  The `Rc<RefCell<Point>>` adjacency
mirror is omitted: within the modelled operations it is only read by
`Web::draw`/`Route::new` (out of scope); its construction, however,
indexes `points[a]` and `points[b]` for every connection, which is where
`Web::new` panics on an out-of-range connection (modelled in `Web.new`). -/
structure Web where
  pathfinder : Pathfinder
  start : Nat
  stop : Nat

/-- Model of `Web::new` (`src/path.rs` lines 119-156).  The order matters
and follows the source: (1) the `points` graph is built, indexing
`points[a]`/`points[b]` for each connection — an out-of-range index panics
(`none`) before any validation; (2) `Pathfinder::new` runs; (3) start/end
bounds are checked (`InvalidEndpoints`); (4) a `None` pathfinder yields
`InvalidRoute`, otherwise `pathfind(start, end)` runs inside the
constructor — whose panic (e.g. unreachable end) propagates (`none`). -/
def Web.new (positions : List Vector) (connections : List (Nat × Nat))
    (startIdx endIdx : Nat) (w : Vector → Vector → ℝ) :
    Option (Except WebCreationError Web) :=
  if ∃ q ∈ connections, positions.length ≤ q.1 ∨ positions.length ≤ q.2 then none
  else
    let pf := Pathfinder.new positions connections w
    if positions.length ≤ startIdx ∨ positions.length ≤ endIdx then
      some (.error .InvalidEndpoints)
    else
      match pf with
      | some x =>
        match x.pathfind startIdx endIdx with
        | .ok p2 _ => some (.ok ⟨p2, startIdx, endIdx⟩)
        | _ => none
      | none => some (.error .InvalidRoute)

/-- Total weight of a route under a weight function: the sum of the weight
function over consecutive position pairs (the spec's "best-route's total
weight"). -/
def routeWeight (w : Vector → Vector → ℝ) (route : List Node) : ℝ :=
  ((route.zip route.tail).map fun q => w q.1.position q.2.position).sum

/-! Concrete three-node instance used to analyse reweighting: nodes at
`(0,0)` (start), `(10,0)` (end), `(5,0)` (middle), connections
`0→1` (direct), `0→2`, `2→1`.  Under `cexW` the direct edge costs `4` and
the two-hop path costs `1`; `cexW2` raises only the direct edge's cost. -/

/-- The initial weight function of the reweighting example. -/
def cexW : Vector → Vector → ℝ := fun a b => if a.x = 0 ∧ b.x = 10 then 4 else 1 / 2

/-- The raised weight function: pointwise ≥ `cexW`, strictly greater on the
direct edge `(0,0)→(10,0)`. -/
def cexW2 : Vector → Vector → ℝ := fun a b => if a.x = 0 ∧ b.x = 10 then 100 else 1 / 2

/-- The pathfinder produced by `Pathfinder.new` on the example. -/
def cexP0 : Pathfinder :=
  ⟨[Node.new ⟨0, 0⟩, Node.new ⟨10, 0⟩, Node.new ⟨5, 0⟩],
   [⟨0, 1, 4⟩, ⟨0, 2, 1 / 2⟩, ⟨2, 1, 1 / 2⟩], none⟩

/-- The best route of the first search: the direct edge. -/
def cexRoute1 : List Node :=
  [⟨⟨0, 0⟩, some 0, some 10, none⟩, ⟨⟨10, 0⟩, some 4, some 0, some 0⟩]

/-- The node states after the first search. -/
def cexNodes1 : List Node :=
  [⟨⟨0, 0⟩, some 0, some 10, none⟩, ⟨⟨10, 0⟩, some 4, some 0, some 0⟩,
   ⟨⟨5, 0⟩, some (1 / 2), some 5, some 0⟩]

/-- The pathfinder state after the first search. -/
def cexP1 : Pathfinder :=
  ⟨cexNodes1, [⟨0, 1, 4⟩, ⟨0, 2, 1 / 2⟩, ⟨2, 1, 1 / 2⟩], some cexRoute1⟩

/-- The node states after the second search (with `cexW2` weights). -/
def cexNodes2 : List Node :=
  [⟨⟨0, 0⟩, some 0, some 10, none⟩, ⟨⟨10, 0⟩, some 1, some 0, some 2⟩,
   ⟨⟨5, 0⟩, some (1 / 2), some 5, some 0⟩]

/-- The best route of the second search: the two-hop path. -/
def cexRoute2 : List Node :=
  [⟨⟨0, 0⟩, some 0, some 10, none⟩, ⟨⟨5, 0⟩, some (1 / 2), some 5, some 0⟩,
   ⟨⟨10, 0⟩, some 1, some 0, some 2⟩]

/-- The pathfinder state after recalculation and the second search. -/
def cexP3 : Pathfinder :=
  ⟨cexNodes2, [⟨0, 1, 100⟩, ⟨0, 2, 1 / 2⟩, ⟨2, 1, 1 / 2⟩], some cexRoute2⟩

/-- The `stop` endpoints of a connection list: besides the start node these
are the only indices the search can ever place in its open or closed
lists. -/
def stopsOf (conns : List Connection) : List Nat := conns.map Connection.stop

/-- Invariant of the `astarGo` loop, for a search started on a freshly
constructed pathfinder (all parents `none`) with in-range indices.  `n` is
the node count and `posns` the construction-time positions. -/
structure StateOK (conns : List Connection) (startIdx endIdx n : Nat) (posns : List Vector)
    (nodes : List Node) (openL closed : List Nat) : Prop where
  hlen : nodes.length = n
  hpos : ∀ i, (nodes.getD i default).position = posns.getD i default
  hnodupO : openL.Nodup
  hnodupC : closed.Nodup
  hdisj : ∀ i ∈ openL, i ∉ closed
  hvalidO : ∀ i ∈ openL, i ∈ startIdx :: stopsOf conns
  hvalidC : ∀ i ∈ closed, i ∈ startIdx :: stopsOf conns
  hboundO : ∀ i ∈ openL, i < n
  hboundC : ∀ i ∈ closed, i < n
  hendC : endIdx ∉ closed
  hstart : startIdx ∈ closed ∨ (openL = [startIdx] ∧ closed = [])
  hstartparent : (nodes.getD startIdx default).parent = none
  hopenparent : ∀ i ∈ openL, i ≠ startIdx →
    ∃ j ∈ closed, (nodes.getD i default).parent = some j
  hrank : ∀ k, k < closed.length → closed.getD k 0 ≠ startIdx →
    ∃ j ∈ closed.take k, (nodes.getD (closed.getD k 0) default).parent = some j
  hcover : ∀ u ∈ closed, ∀ v ∈ neighbours conns u, v ∈ openL ∨ v ∈ closed

end

/-! ### Basic helper lemmas -/

theorem Vector.ext_xy {a b : Vector} (hx : a.x = b.x) (hy : a.y = b.y) : a = b := by
  cases a; cases b; simp_all

@[simp] theorem Vector.sub_x (a b : Vector) : (a - b).x = a.x - b.x := rfl

@[simp] theorem Vector.sub_y (a b : Vector) : (a - b).y = a.y - b.y := rfl

@[simp] theorem Vector.add_x (a b : Vector) : (a + b).x = a.x + b.x := rfl

@[simp] theorem Vector.add_y (a b : Vector) : (a + b).y = a.y + b.y := rfl

@[simp] theorem Vector.smul_x (a : Vector) (s : ℝ) : (a * s).x = a.x * s := rfl

@[simp] theorem Vector.smul_y (a : Vector) (s : ℝ) : (a * s).y = a.y * s := rfl

@[simp] theorem Vector.mk_sub (ax ay bx by' : ℝ) :
    (⟨ax, ay⟩ - ⟨bx, by'⟩ : Vector) = ⟨ax - bx, ay - by'⟩ := rfl

theorem Vector.length_mk_axis (x : ℝ) : Vector.length ⟨x, 0⟩ = |x| := by
  simp [Vector.length, Real.sqrt_mul_self_eq_abs]

theorem Vector.length_nonneg (v : Vector) : 0 ≤ v.length := Real.sqrt_nonneg _

theorem Vector.length_eq_zero_iff (v : Vector) : v.length = 0 ↔ v = ⟨0, 0⟩ := by
  constructor
  · intro h
    have hle : v.x * v.x + v.y * v.y ≤ 0 := Real.sqrt_eq_zero'.mp h
    have hx0 : v.x = 0 := by nlinarith [sq_nonneg v.x, sq_nonneg v.y]
    have hy0 : v.y = 0 := by nlinarith [sq_nonneg v.x, sq_nonneg v.y]
    exact Vector.ext_xy hx0 hy0
  · rintro rfl
    simp [Vector.length]

theorem two_pi_pos : (0 : ℝ) < 2 * Real.pi := by positivity

theorem signumf_of_pos {x : ℝ} (h : 0 < x) : signumf x = 1 := by
  simp [signumf, not_lt.2 h.le]

theorem signumf_of_neg {x : ℝ} (h : x < 0) : signumf x = -1 := by
  simp [signumf, h]

theorem abs_signumf (x : ℝ) : |signumf x| = 1 := by
  unfold signumf
  split_ifs <;> simp

theorem fRem_eq_sub_floor {x y : ℝ} (hx : 0 ≤ x) (hy : 0 < y) :
    fRem x y = x - y * ⌊x / y⌋ := by
  unfold fRem
  rw [if_pos (div_nonneg hx hy.le)]

theorem fRem_nonneg_lt {x y : ℝ} (hx : 0 ≤ x) (hy : 0 < y) :
    0 ≤ fRem x y ∧ fRem x y < y := by
  rw [fRem_eq_sub_floor hx hy]
  have hy' : y ≠ 0 := hy.ne'
  have hfr : x - y * ⌊x / y⌋ = y * Int.fract (x / y) := by
    rw [Int.fract]
    field_simp
  rw [hfr]
  constructor
  · exact mul_nonneg hy.le (Int.fract_nonneg _)
  · have h1 : y * Int.fract (x / y) < y * 1 :=
      mul_lt_mul_of_pos_left (Int.fract_lt_one _) hy
    simpa using h1

theorem fRem_of_lt {x y : ℝ} (hx : 0 ≤ x) (hxy : x < y) (hy : 0 < y) : fRem x y = x := by
  rw [fRem_eq_sub_floor hx hy]
  have h0 : ⌊x / y⌋ = 0 := by
    rw [Int.floor_eq_zero_iff]
    constructor
    · exact div_nonneg hx hy.le
    · exact (div_lt_one hy).2 hxy
  rw [h0]
  simp

theorem fRem_zero_left {y : ℝ} : fRem 0 y = 0 := by
  simp [fRem]

/-! ### C9: `shortest_angle_distance` -/

theorem sad_def (t1 t2 : ℝ) :
    shortest_angle_distance t1 t2 =
      sadCore (if t2 > t1 then fRem (t2 - t1) (2 * Real.pi)
               else fRem (t1 - t2) (2 * Real.pi)) * signumf (t2 - t1) := rfl

theorem sadCore_of_le {d : ℝ} (h0 : 0 ≤ d) (h : d ≤ Real.pi) : sadCore d = d := by
  unfold sadCore
  rw [abs_of_nonneg h0, if_neg (not_lt.2 h)]

theorem sadCore_of_gt {d : ℝ} (h0 : 0 < d) (h : d > Real.pi) : sadCore d = -(2 * Real.pi - d) := by
  unfold sadCore
  rw [abs_of_nonneg h0.le, if_pos h, signumf_of_pos h0]
  ring

theorem sad_d_bounds (t1 t2 : ℝ) :
    0 ≤ (if t2 > t1 then fRem (t2 - t1) (2 * Real.pi) else fRem (t1 - t2) (2 * Real.pi)) ∧
      (if t2 > t1 then fRem (t2 - t1) (2 * Real.pi) else fRem (t1 - t2) (2 * Real.pi)) <
        2 * Real.pi := by
  split_ifs with h
  · exact fRem_nonneg_lt (sub_nonneg.2 h.le) two_pi_pos
  · exact fRem_nonneg_lt (sub_nonneg.2 (not_lt.1 h)) two_pi_pos

theorem sadCore_abs_le {d : ℝ} (h0 : 0 ≤ d) (h2 : d < 2 * Real.pi) : |sadCore d| ≤ Real.pi := by
  rcases le_or_lt d Real.pi with h | h
  · rw [sadCore_of_le h0 h, abs_of_nonneg h0]
    exact h
  · have hd0 : 0 < d := lt_of_le_of_lt Real.pi_pos.le h
    rw [sadCore_of_gt hd0 h, abs_neg, abs_of_nonneg (by linarith : (0:ℝ) ≤ 2 * Real.pi - d)]
    linarith

theorem sad_abs_le (t1 t2 : ℝ) : |shortest_angle_distance t1 t2| ≤ Real.pi := by
  have hd := sad_d_bounds t1 t2
  rw [sad_def, abs_mul, abs_signumf, mul_one]
  exact sadCore_abs_le hd.1 hd.2

theorem sad_antisymm (t1 t2 : ℝ) :
    shortest_angle_distance t1 t2 = -(shortest_angle_distance t2 t1) := by
  rcases lt_trichotomy t1 t2 with h | h | h
  · rw [sad_def, sad_def]
    rw [if_pos h, if_neg (not_lt.2 h.le)]
    rw [signumf_of_pos (sub_pos.2 h), signumf_of_neg (sub_neg.2 h)]
    ring
  · subst h
    rw [sad_def]
    rw [if_neg (lt_irrefl t1), sub_self, fRem_zero_left]
    rw [sadCore_of_le le_rfl Real.pi_pos.le]
    ring
  · rw [sad_def, sad_def]
    rw [if_neg (not_lt.2 h.le), if_pos h]
    rw [signumf_of_neg (sub_neg.2 h), signumf_of_pos (sub_pos.2 h)]
    ring

theorem sad_value_pos_quarter :
    shortest_angle_distance 0 (Real.pi / 2) = Real.pi / 2 := by
  have hpi := Real.pi_pos
  rw [sad_def]
  rw [if_pos (by linarith : Real.pi / 2 > 0)]
  rw [sub_zero, fRem_of_lt (by linarith) (by linarith) two_pi_pos]
  rw [sadCore_of_le (by linarith) (by linarith)]
  rw [signumf_of_pos (by linarith : (0:ℝ) < Real.pi / 2)]
  ring

theorem sad_value_neg_quarter :
    shortest_angle_distance 0 (-(Real.pi / 2)) = -(Real.pi / 2) := by
  have hpi := Real.pi_pos
  rw [sad_def]
  rw [if_neg (by linarith : ¬(-(Real.pi / 2) > 0))]
  rw [zero_sub, neg_neg, fRem_of_lt (by linarith) (by linarith) two_pi_pos]
  rw [sadCore_of_le (by linarith) (by linarith)]
  rw [signumf_of_neg (by linarith : -(Real.pi / 2) - 0 < 0)]
  ring

theorem sad_value_three_half :
    shortest_angle_distance 0 (3 * Real.pi / 2) = -(Real.pi / 2) := by
  have hpi := Real.pi_pos
  rw [sad_def]
  rw [if_pos (by linarith : 3 * Real.pi / 2 > 0)]
  rw [sub_zero, fRem_of_lt (by linarith) (by linarith) two_pi_pos]
  rw [sadCore_of_gt (by linarith) (by linarith)]
  rw [signumf_of_pos (by linarith : (0:ℝ) < 3 * Real.pi / 2)]
  ring

/-- C9 (amended): for all angles the signed delta returned by
`shortest_angle_distance` lies in the closed interval `[-π, π]` (the value
`-π` is attained, so the half-open interval `(-π, π]` of the original claim
is off by one endpoint), swapping the arguments flips the sign, and the
three specific values from the spec hold. -/
theorem shortest_angle_distance_props :
    (∀ t1 t2 : ℝ, -Real.pi ≤ shortest_angle_distance t1 t2 ∧
        shortest_angle_distance t1 t2 ≤ Real.pi ∧
        shortest_angle_distance t1 t2 = -(shortest_angle_distance t2 t1)) ∧
      shortest_angle_distance 0 (Real.pi / 2) = Real.pi / 2 ∧
      shortest_angle_distance 0 (-(Real.pi / 2)) = -(Real.pi / 2) ∧
      shortest_angle_distance 0 (3 * Real.pi / 2) = -(Real.pi / 2) := by
  refine ⟨fun t1 t2 => ?_, sad_value_pos_quarter, sad_value_neg_quarter, sad_value_three_half⟩
  have h := abs_le.1 (sad_abs_le t1 t2)
  exact ⟨h.1, h.2, sad_antisymm t1 t2⟩

/-- C9 (counterexample): `shortest_angle_distance(π, 0) = -π`, which is not
in the half-open interval `(-π, π]` claimed by the spec. -/
theorem shortest_angle_distance_hits_neg_pi :
    shortest_angle_distance Real.pi 0 = -Real.pi ∧
      ¬(-Real.pi < shortest_angle_distance Real.pi 0) := by
  have hpi := Real.pi_pos
  have hval : shortest_angle_distance Real.pi 0 = -Real.pi := by
    rw [sad_def]
    rw [if_neg (by linarith : ¬((0:ℝ) > Real.pi))]
    rw [sub_zero, fRem_of_lt (by linarith) (by linarith) two_pi_pos]
    rw [sadCore_of_le (by linarith) le_rfl]
    rw [zero_sub, signumf_of_neg (by linarith : -Real.pi < 0)]
    ring
  exact ⟨hval, by rw [hval]; exact lt_irrefl _⟩

/-! ### C6: `g_cost` at construction time -/

theorem pathfinder_new_nodes {positions : List Vector} {connections : List (Nat × Nat)}
    {w : Vector → Vector → ℝ} {p : Pathfinder}
    (hp : Pathfinder.new positions connections w = some p) :
    p.nodes = positions.map Node.new ∧
      p.connections = buildConnections positions w connections [] ∧
      p.best_route = none := by
  unfold Pathfinder.new at hp
  split_ifs at hp with h
  all_goals cases hp
  all_goals exact ⟨rfl, rfl, rfl⟩

/-- C6 (amended): in a freshly constructed `Pathfinder` every node has
`g_cost = Some 0.0` (`Node::new` initializes `g_cost` with `0.0.into()`,
not `None`), while `h_cost` and `parent` start as `None`. -/
theorem fresh_nodes_g_zero (positions : List Vector) (connections : List (Nat × Nat))
    (w : Vector → Vector → ℝ) (p : Pathfinder)
    (hp : Pathfinder.new positions connections w = some p) :
    ∀ n ∈ p.nodes, n.g_cost = some 0 ∧ n.h_cost = none ∧ n.parent = none := by
  intro n hn
  rw [(pathfinder_new_nodes hp).1] at hn
  rw [List.mem_map] at hn
  obtain ⟨v, -, rfl⟩ := hn
  exact ⟨rfl, rfl, rfl⟩

/-- C6 (witness for the amended theorem): a concrete one-node pathfinder. -/
theorem fresh_nodes_g_zero_witness :
    Pathfinder.new [(⟨0, 0⟩ : Vector)] [] (fun _ _ => 0) =
        some ⟨[Node.new ⟨0, 0⟩], [], none⟩ ∧
      ∀ n ∈ (⟨[Node.new ⟨0, 0⟩], [], none⟩ : Pathfinder).nodes,
        n.g_cost = some 0 ∧ n.h_cost = none ∧ n.parent = none := by
  constructor
  · simp [Pathfinder.new, buildConnections]
  · exact fresh_nodes_g_zero [⟨0, 0⟩] [] (fun _ _ => 0) _
      (by simp [Pathfinder.new, buildConnections])

/-! ### C2 / C7: panics on unreachable targets and invalid input -/

/-- C2 (code bug): on a graph where the end node is unreachable from the
start (two nodes, no connections), `pathfind` does not surface an error
value — once the open set is exhausted the min-selection fold yields `None`
and the source `.unwrap()`s it, i.e. it panics (modelled as `.panicked`). -/
theorem pathfind_panics_when_unreachable :
    Pathfinder.new [⟨0, 0⟩, ⟨1, 0⟩] [] (fun _ _ => 1) =
        some ⟨[Node.new ⟨0, 0⟩, Node.new ⟨1, 0⟩], [], none⟩ ∧
      Pathfinder.pathfind ⟨[Node.new ⟨0, 0⟩, Node.new ⟨1, 0⟩], [], none⟩ 0 1 = .panicked ∧
      ¬Reaches ([] : List Connection) 0 1 := by
  refine ⟨by norm_num [Pathfinder.new, buildConnections], ?_, ?_⟩
  · norm_num [Pathfinder.pathfind, astarGo, selectMin, selectMinGo, neighbours,
      Node.h_cost_calculate, Node.new]
  · intro h
    cases h with
    | head hmem _ => simp [neighbours] at hmem

/-- C7 (code bug): `Web::new` panics instead of returning the claimed
recoverable errors.  First conjunct: a valid graph with no start→end path
panics inside the `pathfind` call made by the constructor (the claim says
`NoValidRoute`/`InvalidRoute`).  Second conjunct: an out-of-range
connection index panics at `points[a]`/`points[b]` before any validation
(the claim says `InvalidConnections`/`InvalidRoute`). -/
theorem web_new_panics_on_no_route_and_oob :
    Web.new [⟨0, 0⟩, ⟨1, 0⟩] [] 0 1 (fun _ _ => 1) = none ∧
      Web.new [⟨0, 0⟩] [(0, 5)] 0 0 (fun _ _ => 1) = none := by
  constructor
  · norm_num [Web.new, Pathfinder.new, buildConnections, Pathfinder.pathfind, astarGo,
      selectMin, selectMinGo, neighbours, Node.h_cost_calculate, Node.new]
  · norm_num [Web.new]

/-! ### C4 / C5: `line_circle_collision` -/

theorem sqrt_hundred : Real.sqrt 100 = 10 := by
  rw [show (100 : ℝ) = 10 ^ 2 by norm_num, Real.sqrt_sq (by norm_num : (0:ℝ) ≤ 10)]

/-- C4 (code bug): with both endpoints exactly on the circle boundary
(centre `(0,0)`, radius `5`, segment `(-5,0)–(5,0)`), the collision vector
accumulates the two endpoint hits *and* the two quadratic boundary roots
without deduplication — 4 entries — so `assert!(collisions.len() <= 2)`
fails and `line_circle_collision` panics (modelled as `none`), contrary to
the claim that it never panics and returns at most 2 points. -/
theorem line_circle_assert_fails_on_boundary_endpoints :
    (lineCircleCollisionPoints ⟨0, 0⟩ 5 ⟨-5, 0⟩ ⟨5, 0⟩).length = 4 ∧
      line_circle_collision ⟨0, 0⟩ 5 ⟨-5, 0⟩ ⟨5, 0⟩ = none ∧
      Vector.length (⟨-5, 0⟩ - ⟨0, 0⟩ : Vector) = 5 ∧
      Vector.length (⟨5, 0⟩ - ⟨0, 0⟩ : Vector) = 5 := by
  have hpts : (lineCircleCollisionPoints ⟨0, 0⟩ 5 ⟨-5, 0⟩ ⟨5, 0⟩).length = 4 := by
    unfold lineCircleCollisionPoints
    norm_num [Vector.sqr_length, quadratic, QuadraticSolution.toList, keepInRange, sqrt_hundred]
  refine ⟨hpts, ?_, ?_, ?_⟩
  · unfold line_circle_collision
    rw [if_neg (by rw [hpts]; norm_num)]
  · rw [Vector.mk_sub]
    norm_num [Vector.length_mk_axis]
  · rw [Vector.mk_sub]
    norm_num [Vector.length_mk_axis]

/-- C5 (code bug): for a segment with both endpoints strictly inside the
circle (centre `(0,0)`, radius `5`, segment `(-1,0)–(1,0)`), the function
returns `Two((-1,0),(1,0))` — the two interior endpoints — not `None` as
the enum's own doc comment ("a line fully enclosed by a circle is
represented with `LineCircleCollision::None`") and the claim state. -/
theorem line_circle_enclosed_returns_two :
    line_circle_collision ⟨0, 0⟩ 5 ⟨-1, 0⟩ ⟨1, 0⟩ =
        some (.Two ⟨-1, 0⟩ ⟨1, 0⟩) ∧
      line_circle_collision ⟨0, 0⟩ 5 ⟨-1, 0⟩ ⟨1, 0⟩ ≠ some .None ∧
      Vector.length (⟨-1, 0⟩ - ⟨0, 0⟩ : Vector) < 5 ∧
      Vector.length (⟨1, 0⟩ - ⟨0, 0⟩ : Vector) < 5 := by
  have hpts : lineCircleCollisionPoints ⟨0, 0⟩ 5 ⟨-1, 0⟩ ⟨1, 0⟩ = [⟨-1, 0⟩, ⟨1, 0⟩] := by
    unfold lineCircleCollisionPoints
    norm_num [Vector.sqr_length, quadratic, QuadraticSolution.toList, keepInRange, sqrt_hundred]
  have hval : line_circle_collision ⟨0, 0⟩ 5 ⟨-1, 0⟩ ⟨1, 0⟩ =
      some (.Two ⟨-1, 0⟩ ⟨1, 0⟩) := by
    unfold line_circle_collision
    rw [hpts]
    norm_num [LineCircleCollision.from_vec]
  refine ⟨hval, ?_, ?_, ?_⟩
  · rw [hval]
    simp
  · rw [Vector.mk_sub]
    norm_num [Vector.length_mk_axis]
  · rw [Vector.mk_sub]
    norm_num [Vector.length_mk_axis]

/-! ### Vector algebra helpers -/

theorem Vector.smul_zero_vec (v : Vector) : v * (0 : ℝ) = ⟨0, 0⟩ :=
  Vector.ext_xy (mul_zero _) (mul_zero _)

theorem Vector.smul_one_vec (v : Vector) : v * (1 : ℝ) = v :=
  Vector.ext_xy (mul_one _) (mul_one _)

theorem Vector.add_zero_vec (v : Vector) : v + ⟨0, 0⟩ = v :=
  Vector.ext_xy (add_zero _) (add_zero _)

theorem Vector.sub_self_vec (v : Vector) : v - v = ⟨0, 0⟩ :=
  Vector.ext_xy (sub_self _) (sub_self _)

theorem Vector.zero_smul_vec (s : ℝ) : (⟨0, 0⟩ : Vector) * s = ⟨0, 0⟩ :=
  Vector.ext_xy (zero_mul _) (zero_mul _)

theorem Vector.add_sub_self (a b : Vector) : a + (b - a) * (1 : ℝ) = b := by
  rw [Vector.smul_one_vec]
  exact Vector.ext_xy (by simp) (by simp)

theorem Vector.sub_eq_zero_iff (a b : Vector) : b - a = ⟨0, 0⟩ ↔ b = a := by
  constructor
  · intro h
    have hx := congrArg Vector.x h
    have hy := congrArg Vector.y h
    simp only [Vector.sub_x, Vector.sub_y] at hx hy
    exact Vector.ext_xy (by linarith) (by linarith)
  · rintro rfl
    exact Vector.sub_self_vec b

/-! ### Route lemmas (C8 / C10) -/

theorem foldl_add_shift {α : Type} (g : α → ℝ) :
    ∀ (l : List α) (c : ℝ),
      l.foldl (fun acc q => acc + g q) c = c + l.foldl (fun acc q => acc + g q) 0
  | [], c => by simp
  | q :: rest, c => by
    simp only [List.foldl_cons]
    rw [foldl_add_shift g rest (c + g q), foldl_add_shift g rest (0 + g q)]
    ring

theorem polyLen_cons (a b : Vector) (rest : List Vector) :
    polyLen (a :: b :: rest) = (b - a).length + polyLen (b :: rest) := by
  unfold polyLen
  show ((a, b) :: ((b :: rest).zip (b :: rest).tail)).foldl
      (fun acc q => acc + (q.2 - q.1).length) 0 = _
  simp only [List.foldl_cons]
  rw [foldl_add_shift]
  ring

theorem polyLen_nonneg : ∀ ps : List Vector, 0 ≤ polyLen ps := by
  intro ps
  induction ps with
  | nil => simp [polyLen]
  | cons a rest ih =>
    cases rest with
    | nil => simp [polyLen]
    | cons b rest2 =>
      rw [polyLen_cons]
      have := Vector.length_nonneg (b - a)
      linarith

theorem polyLen_zero_getLast {c : Vector} :
    ∀ ps : List Vector, polyLen (c :: ps) = 0 → (c :: ps).getLast?.getD default = c := by
  intro ps
  induction ps generalizing c with
  | nil => intro _; rfl
  | cons b rest ih =>
    intro h
    rw [polyLen_cons] at h
    have h1 := Vector.length_nonneg (b - c)
    have h2 := polyLen_nonneg (b :: rest)
    have hlen : (b - c).length = 0 := by linarith
    have hbc : b = c := (Vector.sub_eq_zero_iff c b).1 ((Vector.length_eq_zero_iff _).1 hlen)
    have hrest : polyLen (b :: rest) = 0 := by linarith
    have := ih (c := b) hrest
    rw [List.getLast?_cons_cons]
    rw [this, hbc]

/-- The loop of `get_position` agrees with the spec-style arc-length
parameterization on routes with positive total length and no zero-length
segment: at accumulated (normalized) progress `pm`, the remaining arc
length to walk is `(p - pm) * L`.  (A zero-length segment instead makes
NaN coordinates escape — see `get_position_nan_escape_on_zero_segment`.) -/
theorem getPosLoop_eq_pointAtArcSpec {L : ℝ} (hL : 0 < L) :
    ∀ ps : List Vector, (∀ q ∈ ps.zip ps.tail, (q.2 - q.1).length ≠ 0) →
      ∀ pm p : ℝ,
        (getPosLoop L p pm (ps.zip ps.tail)).resolve (ps.getLast?.getD default) =
          some (pointAtArcSpec ps ((p - pm) * L)) := by
  intro ps
  induction ps with
  | nil => intro _ pm p; simp [getPosLoop, pointAtArcSpec, GetPosResult.resolve]
  | cons a tail ih =>
    cases tail with
    | nil => intro _ pm p; simp [getPosLoop, pointAtArcSpec, GetPosResult.resolve]
    | cons b rest =>
      intro hseg pm p
      have hpair : (a :: b :: rest).zip (a :: b :: rest).tail =
          (a, b) :: ((b :: rest).zip (b :: rest).tail) := rfl
      have hd0 : (b - a).length ≠ 0 := by
        have := hseg (a, b) (by rw [hpair]; exact List.mem_cons_self _ _)
        exact this
      have hsegrest : ∀ q ∈ (b :: rest).zip (b :: rest).tail, (q.2 - q.1).length ≠ 0 := by
        intro q hq
        exact hseg q (by rw [hpair]; exact List.mem_cons_of_mem _ hq)
      have hnot : ¬((b - a).length = 0 ∧ L = 0) := fun h => hd0 h.1
      rw [hpair]
      by_cases hc : (p - pm) * L ≤ (b - a).length
      · have hcond : pm + (b - a).length / L ≥ p := by
          rw [ge_iff_le, ← sub_le_iff_le_add', le_div_iff₀ hL]
          exact hc
        simp only [getPosLoop, pointAtArcSpec, if_neg hnot, if_neg hL.ne', if_pos hcond,
          if_neg hd0, if_pos hc, GetPosResult.resolve]
        rw [div_div_eq_mul_div]
      · have hcond : ¬(pm + (b - a).length / L ≥ p) := by
          rw [ge_iff_le, ← sub_le_iff_le_add', le_div_iff₀ hL]
          exact hc
        simp only [getPosLoop, pointAtArcSpec, if_neg hnot, if_neg hL.ne', if_neg hcond,
          if_neg hc]
        rw [List.getLast?_cons_cons]
        rw [ih hsegrest (pm + (b - a).length / L) p]
        rw [show (p - (pm + (b - a).length / L)) * L = (p - pm) * L - (b - a).length from by
          field_simp
          ring]

theorem pointAtArcSpec_zero :
    ∀ ps : List Vector, ps ≠ [] → pointAtArcSpec ps 0 = ps.head?.getD default := by
  intro ps hne
  cases ps with
  | nil => exact absurd rfl hne
  | cons a tail =>
    cases tail with
    | nil => rfl
    | cons b rest =>
      rw [pointAtArcSpec]
      rw [if_pos (Vector.length_nonneg (b - a))]
      rw [zero_div, Vector.smul_zero_vec, Vector.add_zero_vec]
      rfl

theorem pointAtArcSpec_total :
    ∀ ps : List Vector, ps ≠ [] →
      pointAtArcSpec ps (polyLen ps) = ps.getLast?.getD default := by
  intro ps
  induction ps with
  | nil => intro h; exact absurd rfl h
  | cons a tail ih =>
    intro _
    cases tail with
    | nil => rfl
    | cons b rest =>
      rw [pointAtArcSpec, polyLen_cons]
      have hD := Vector.length_nonneg (b - a)
      have hrest := polyLen_nonneg (b :: rest)
      by_cases hc : (b - a).length + polyLen (b :: rest) ≤ (b - a).length
      · have hz : polyLen (b :: rest) = 0 := by linarith
        rw [if_pos hc, List.getLast?_cons_cons, polyLen_zero_getLast rest hz]
        by_cases hD0 : (b - a).length = 0
        · have hba : b = a :=
            (Vector.sub_eq_zero_iff a b).1 ((Vector.length_eq_zero_iff _).1 hD0)
          rw [hz, hD0]
          norm_num
          rw [Vector.smul_zero_vec, Vector.add_zero_vec, hba]
        · rw [hz, add_zero, div_self hD0, Vector.add_sub_self]
      · rw [if_neg hc, List.getLast?_cons_cons]
        have harg : (b - a).length + polyLen (b :: rest) - (b - a).length =
            polyLen (b :: rest) := by ring
        rw [harg, ih (by simp)]

theorem clamp01_nonneg (p : ℝ) : 0 ≤ clamp01 p :=
  le_min (le_max_right p 0) zero_le_one

theorem clamp01_idem (p : ℝ) : clamp01 (clamp01 p) = clamp01 p := by
  unfold clamp01
  rw [max_eq_left (le_min (le_max_right p 0) zero_le_one)]
  rw [min_assoc, min_self]

theorem clamp01_zero : clamp01 0 = 0 := by
  unfold clamp01
  rw [max_self, min_eq_left zero_le_one]

theorem clamp01_one : clamp01 1 = 1 := by
  unfold clamp01
  rw [max_eq_left zero_le_one, min_self]

theorem clamp01_mono {p q : ℝ} (h : p ≤ q) : clamp01 p ≤ clamp01 q :=
  min_le_min (max_le_max h le_rfl) le_rfl

theorem get_position_eq_spec {ps : List Vector} (hL : 0 < polyLen ps)
    (hseg : ∀ q ∈ ps.zip ps.tail, (q.2 - q.1).length ≠ 0) (p : ℝ) :
    (Route.from_positions_unchecked ps).get_position p =
      some (pointAtArcSpec ps (clamp01 p * polyLen ps)) := by
  unfold Route.get_position Route.from_positions_unchecked
  simp only
  rw [getPosLoop_eq_pointAtArcSpec hL ps hseg 0 (clamp01 p), sub_zero]

/-- C8 (amended): for every route with at least 2 points, positive total
length and no zero-length segment, `get_position 0` is the first point,
`get_position 1` is the last point, the progress argument is clamped to
`[0,1]` (so the function is total and the final-point fallback needs no
out-of-range access), `get_position p` is exactly the point at arc length
`clamp(p) * length` of the spec's arc-length parameterization, and that
arc length is monotone in `p`.  Without the no-zero-length-segment
restriction the claim fails: on a zero-length segment the source divides
by the zero normalized length (`0.0/0.0` in `f32`) and returns NaN
coordinates — see `get_position_nan_escape_on_zero_segment`. -/
theorem get_position_props_of_pos_segments (ps : List Vector)
    (h2 : 2 ≤ ps.length) (hL : 0 < (Route.from_positions_unchecked ps).length)
    (hseg : ∀ q ∈ ps.zip ps.tail, (q.2 - q.1).length ≠ 0) :
    (Route.from_positions_unchecked ps).get_position 0 = some (ps.head?.getD default) ∧
      (Route.from_positions_unchecked ps).get_position 1 = some (ps.getLast?.getD default) ∧
      (∀ p, (Route.from_positions_unchecked ps).get_position p =
        (Route.from_positions_unchecked ps).get_position (clamp01 p)) ∧
      (∀ p, (Route.from_positions_unchecked ps).get_position p =
        some (pointAtArcSpec ps (clamp01 p * (Route.from_positions_unchecked ps).length))) ∧
      (∀ p q, p ≤ q →
        clamp01 p * (Route.from_positions_unchecked ps).length ≤
          clamp01 q * (Route.from_positions_unchecked ps).length) := by
  have hL' : 0 < polyLen ps := hL
  have hne : ps ≠ [] := by
    intro h
    rw [h] at h2
    simp at h2
  refine ⟨?_, ?_, ?_, ?_, ?_⟩
  · rw [get_position_eq_spec hL' hseg, clamp01_zero, zero_mul, pointAtArcSpec_zero ps hne]
  · rw [get_position_eq_spec hL' hseg, clamp01_one, one_mul, pointAtArcSpec_total ps hne]
  · intro p
    rw [get_position_eq_spec hL' hseg, get_position_eq_spec hL' hseg, clamp01_idem]
  · intro p
    exact get_position_eq_spec hL' hseg p
  · intro p q hpq
    exact mul_le_mul_of_nonneg_right (clamp01_mono hpq) hL.le

/-- C8 (witness): the two-point route `(0,0)–(1,0)` of length 1, whose
single segment has nonzero length. -/
theorem get_position_props_of_pos_segments_witness :
    (2 ≤ ([⟨0, 0⟩, ⟨1, 0⟩] : List Vector).length ∧
        0 < (Route.from_positions_unchecked [⟨0, 0⟩, ⟨1, 0⟩]).length ∧
        ∀ q ∈ ([⟨0, 0⟩, ⟨1, 0⟩] : List Vector).zip ([⟨0, 0⟩, ⟨1, 0⟩] : List Vector).tail,
          (q.2 - q.1).length ≠ 0) ∧
      ((Route.from_positions_unchecked [⟨0, 0⟩, ⟨1, 0⟩]).get_position 0 =
          some (([⟨0, 0⟩, ⟨1, 0⟩] : List Vector).head?.getD default) ∧
        (Route.from_positions_unchecked [⟨0, 0⟩, ⟨1, 0⟩]).get_position 1 =
          some (([⟨0, 0⟩, ⟨1, 0⟩] : List Vector).getLast?.getD default) ∧
        (∀ p, (Route.from_positions_unchecked [⟨0, 0⟩, ⟨1, 0⟩]).get_position p =
          (Route.from_positions_unchecked [⟨0, 0⟩, ⟨1, 0⟩]).get_position (clamp01 p)) ∧
        (∀ p, (Route.from_positions_unchecked [⟨0, 0⟩, ⟨1, 0⟩]).get_position p =
          some (pointAtArcSpec [⟨0, 0⟩, ⟨1, 0⟩]
            (clamp01 p * (Route.from_positions_unchecked [⟨0, 0⟩, ⟨1, 0⟩]).length))) ∧
        (∀ p q, p ≤ q →
          clamp01 p * (Route.from_positions_unchecked [⟨0, 0⟩, ⟨1, 0⟩]).length ≤
            clamp01 q * (Route.from_positions_unchecked [⟨0, 0⟩, ⟨1, 0⟩]).length)) := by
  have hlen : 0 < (Route.from_positions_unchecked [(⟨0, 0⟩ : Vector), ⟨1, 0⟩]).length := by
    norm_num [Route.from_positions_unchecked, polyLen, Vector.length_mk_axis]
  have hseg : ∀ q ∈ ([⟨0, 0⟩, ⟨1, 0⟩] : List Vector).zip
      ([⟨0, 0⟩, ⟨1, 0⟩] : List Vector).tail, (q.2 - q.1).length ≠ 0 := by
    intro q hq
    simp only [List.tail_cons, List.zip_cons_cons, List.zip_nil_right,
      List.mem_singleton] at hq
    rw [hq]
    norm_num [Vector.length_mk_axis]
  exact ⟨⟨by norm_num, hlen, hseg⟩,
    get_position_props_of_pos_segments [⟨0, 0⟩, ⟨1, 0⟩] (by norm_num) hlen hseg⟩

/-- C8 (counterexample): the route `[(0,0), (0,0), (1,0)]` has 3 points
and total length `1 > 0`, yet `get_position 0.0` lands on the zero-length
first segment, where the source computes `(progress - progress_made) / dist`
with `dist = 0.0/length`, i.e. `0.0/0.0 = NaN` in `f32`, and returns NaN
coordinates — not the first point as the claim asserts. -/
theorem get_position_nan_escape_on_zero_segment :
    2 ≤ ([⟨0, 0⟩, ⟨0, 0⟩, ⟨1, 0⟩] : List Vector).length ∧
      (Route.from_positions_unchecked [⟨0, 0⟩, ⟨0, 0⟩, ⟨1, 0⟩]).length = 1 ∧
      (Route.from_positions_unchecked [⟨0, 0⟩, ⟨0, 0⟩, ⟨1, 0⟩]).get_position 0 = none ∧
      (none : Option Vector) ≠
        some (([⟨0, 0⟩, ⟨0, 0⟩, ⟨1, 0⟩] : List Vector).head?.getD default) := by
  refine ⟨by norm_num, ?_, ?_, by simp⟩
  · norm_num [Route.from_positions_unchecked, polyLen, Vector.length_mk_axis]
  · norm_num [Route.get_position, Route.from_positions_unchecked, polyLen, getPosLoop,
      GetPosResult.resolve, clamp01, Vector.length_mk_axis]

/-! ### C10: all-identical-point routes -/

theorem polyLen_all_eq_zero {c : Vector} :
    ∀ ps : List Vector, (∀ x ∈ ps, x = c) → polyLen ps = 0 := by
  intro ps
  induction ps with
  | nil => intro _; simp [polyLen]
  | cons a tail ih =>
    intro hall
    cases tail with
    | nil => simp [polyLen]
    | cons b rest =>
      rw [polyLen_cons]
      have ha : a = c := hall a (by simp)
      have hb : b = c := hall b (by simp)
      have hlen : (b - a).length = 0 := by
        rw [ha, hb, Vector.sub_self_vec]
        exact (Vector.length_eq_zero_iff _).2 rfl
      rw [hlen, ih (fun x hx => hall x (List.mem_cons_of_mem a hx))]
      ring

theorem getLast_const {c : Vector} :
    ∀ ps : List Vector, ps ≠ [] → (∀ x ∈ ps, x = c) → ps.getLast?.getD default = c := by
  intro ps
  induction ps with
  | nil => intro h; exact absurd rfl h
  | cons a tail ih =>
    intro _ hall
    cases tail with
    | nil => exact hall a (by simp)
    | cons b rest =>
      rw [List.getLast?_cons_cons]
      exact ih (by simp) fun x hx => hall x (List.mem_cons_of_mem a hx)

/-- C10: for a route whose points are all the same point `c`
(total length 0), `get_position` returns that final point for *every*
progress value and no out-of-range access occurs: in the model the total
length is 0, so on a multi-point route the very first segment satisfies
`dist = 0 ∧ length = 0` and the loop falls through to the final point
(matching the `f32` source, where the `0.0/0.0` comparisons are
`NaN >= p`, i.e. false, so every iteration falls through to the same
final point and no NaN coordinate escapes). -/
theorem get_position_degenerate_returns_last (ps : List Vector) (c : Vector)
    (hne : ps ≠ []) (hall : ∀ x ∈ ps, x = c) :
    (∀ p, (Route.from_positions_unchecked ps).get_position p = some c) ∧
      ps.getLast?.getD default = c := by
  have hlast := getLast_const ps hne hall
  have hL : polyLen ps = 0 := polyLen_all_eq_zero ps hall
  refine ⟨?_, hlast⟩
  intro p
  unfold Route.get_position Route.from_positions_unchecked
  simp only
  cases ps with
  | nil => exact absurd rfl hne
  | cons a tail =>
    cases tail with
    | nil =>
      simp only [List.tail_cons, List.zip_nil_right, getPosLoop, GetPosResult.resolve]
      rw [hlast]
    | cons b rest =>
      have ha : a = c := hall a (by simp)
      have hb : b = c := hall b (by simp)
      have hpair : ((a :: b :: rest).zip (a :: b :: rest).tail) =
          (a, b) :: ((b :: rest).zip (b :: rest).tail) := rfl
      have hcond : (b - a).length = 0 ∧ polyLen (a :: b :: rest) = 0 := by
        refine ⟨?_, hL⟩
        rw [ha, hb, Vector.sub_self_vec]
        exact (Vector.length_eq_zero_iff _).2 rfl
      rw [hpair]
      simp only [getPosLoop, if_pos hcond, GetPosResult.resolve]
      rw [hlast]

/-- C10 (witness): the degenerate two-point route at `(2,3)`. -/
theorem get_position_degenerate_returns_last_witness :
    (([⟨2, 3⟩, ⟨2, 3⟩] : List Vector) ≠ [] ∧
        ∀ x ∈ ([⟨2, 3⟩, ⟨2, 3⟩] : List Vector), x = (⟨2, 3⟩ : Vector)) ∧
      ((∀ p, (Route.from_positions_unchecked [⟨2, 3⟩, ⟨2, 3⟩]).get_position p =
          some (⟨2, 3⟩ : Vector)) ∧
        ([⟨2, 3⟩, ⟨2, 3⟩] : List Vector).getLast?.getD default = ⟨2, 3⟩) := by
  have h1 : ([⟨2, 3⟩, ⟨2, 3⟩] : List Vector) ≠ [] := by simp
  have h2 : ∀ x ∈ ([⟨2, 3⟩, ⟨2, 3⟩] : List Vector), x = (⟨2, 3⟩ : Vector) := by
    intro x hx
    simp at hx
    rcases hx with rfl | rfl <;> rfl
  exact ⟨⟨h1, h2⟩, get_position_degenerate_returns_last [⟨2, 3⟩, ⟨2, 3⟩] ⟨2, 3⟩ h1 h2⟩

theorem cex_run1 : cexP0.pathfind 0 1 = .ok cexP1 cexRoute1 := by
  norm_num [cexP0, cexP1, cexNodes1, cexRoute1, Pathfinder.pathfind, astarGo, selectMin,
    selectMinGo, neighbours, relaxOne, Node.h_cost_calculate, Node.set_g_cost, Node.fCost,
    Node.new, optLt, reconstructGo, findConnection, Vector.length_mk_axis]

theorem cex_run2 : (cexP1.recalculate_weights cexW2).pathfind 0 1 = .ok cexP3 cexRoute2 := by
  norm_num [cexP1, cexP3, cexNodes1, cexNodes2, cexRoute2, cexW2, Pathfinder.recalculate_weights,
    Pathfinder.pathfind, astarGo, selectMin, selectMinGo, neighbours, relaxOne,
    Node.h_cost_calculate, Node.set_g_cost, Node.fCost, Node.new, optLt, reconstructGo,
    findConnection, Vector.length_mk_axis]

/-- C3 (counterexample): a `Pathfinder` with computed best route `0→1` of
total weight `4`; recalculating with `cexW2` — pointwise ≥ the old weights
and strictly greater on the best route's only edge — and re-running
`pathfind` yields the route `0→2→1` whose total weight `1` is *smaller*
than the previous best route's total weight `4`.  (The first search's
route is not weight-optimal: the relaxation compares Euclidean distances
while accumulating connection weights, so raising one edge's weight can
make the search find the cheaper path it previously missed.) -/
theorem recalc_total_weight_can_decrease :
    Pathfinder.new [⟨0, 0⟩, ⟨10, 0⟩, ⟨5, 0⟩] [(0, 1), (0, 2), (2, 1)] cexW = some cexP0 ∧
      cexP0.pathfind 0 1 = .ok cexP1 cexRoute1 ∧
      (∀ a b, cexW a b ≤ cexW2 a b) ∧
      cexW ⟨0, 0⟩ ⟨10, 0⟩ < cexW2 ⟨0, 0⟩ ⟨10, 0⟩ ∧
      cexRoute1.map Node.position = [⟨0, 0⟩, ⟨10, 0⟩] ∧
      (cexP1.recalculate_weights cexW2).pathfind 0 1 = .ok cexP3 cexRoute2 ∧
      routeWeight cexW2 cexRoute2 < routeWeight cexW cexRoute1 := by
  refine ⟨?_, cex_run1, ?_, ?_, ?_, cex_run2, ?_⟩
  · norm_num [Pathfinder.new, buildConnections, cexP0, cexW]
  · intro a b
    unfold cexW cexW2
    split_ifs <;> norm_num
  · norm_num [cexW, cexW2]
  · norm_num [cexRoute1]
  · norm_num [routeWeight, cexRoute1, cexRoute2, cexW, cexW2]

/-- C3 (amended): recalculating weights with a function that is pointwise
greater-or-equal on every connection's endpoints never decreases any
individual connection's weight, and a route's total weight under a
pointwise-larger weight function is never smaller; the original claim's
comparison — new best route under new weights versus old best route under
old weights — can decrease, because the search does not return
weight-optimal routes (see the counterexample). -/
theorem recalc_weights_pointwise_mono (p : Pathfinder) (w2 : Vector → Vector → ℝ)
    (h : ∀ c ∈ p.connections,
      c.weight ≤ w2 ((p.nodes.getD c.start default).position)
        ((p.nodes.getD c.stop default).position)) :
    List.Forall₂
        (fun cOld cNew =>
          cOld.start = cNew.start ∧ cOld.stop = cNew.stop ∧ cOld.weight ≤ cNew.weight)
        p.connections (p.recalculate_weights w2).connections ∧
      ∀ (wA wB : Vector → Vector → ℝ), (∀ a b, wA a b ≤ wB a b) →
        ∀ route, routeWeight wA route ≤ routeWeight wB route := by
  constructor
  · unfold Pathfinder.recalculate_weights
    simp only [List.forall₂_map_right_iff, List.forall₂_same]
    intro c hc
    exact ⟨trivial, trivial, h c hc⟩
  · intro wA wB hAB route
    unfold routeWeight
    exact List.sum_le_sum fun q _ => hAB q.1.position q.2.position

/-- C3 (witness for the amended theorem): the concrete example pathfinder
and raised weight function. -/
theorem recalc_weights_pointwise_mono_witness :
    (∀ c ∈ cexP0.connections,
        c.weight ≤ cexW2 ((cexP0.nodes.getD c.start default).position)
          ((cexP0.nodes.getD c.stop default).position)) ∧
      (List.Forall₂
          (fun cOld cNew =>
            cOld.start = cNew.start ∧ cOld.stop = cNew.stop ∧ cOld.weight ≤ cNew.weight)
          cexP0.connections (cexP0.recalculate_weights cexW2).connections ∧
        ∀ (wA wB : Vector → Vector → ℝ), (∀ a b, wA a b ≤ wB a b) →
          ∀ route, routeWeight wA route ≤ routeWeight wB route) := by
  have hw : ∀ c ∈ cexP0.connections,
      c.weight ≤ cexW2 ((cexP0.nodes.getD c.start default).position)
        ((cexP0.nodes.getD c.stop default).position) := by
    intro c hc
    simp only [cexP0, List.mem_cons, List.not_mem_nil, or_false] at hc
    rcases hc with rfl | rfl | rfl <;> norm_num [cexP0, cexW2, Node.new]
  exact ⟨hw, recalc_weights_pointwise_mono cexP0 cexW2 hw⟩

/-- C6 (counterexample): immediately after construction the single node's
`g_cost` is `Some 0.0`, not `None` as the claim states. -/
theorem g_cost_not_none_at_construction :
    (Pathfinder.new [(⟨0, 0⟩ : Vector)] [] (fun _ _ => 0)).map
        (fun p => p.nodes.map Node.g_cost) = some [some 0] ∧
      (some (0 : ℝ) ≠ (none : Option ℝ)) := by
  constructor
  · simp [Pathfinder.new, buildConnections, Node.new]
  · simp

/-! ### C1: A* terminates with a start-to-end route.  Supporting lemmas. -/

theorem getD_set_self :
    ∀ (l : List Node) (i : Nat) (a : Node), i < l.length →
      (l.set i a).getD i default = a
  | [], i, a, h => absurd h (by simp)
  | _ :: _, 0, _, _ => rfl
  | _ :: rest, i + 1, a, h => getD_set_self rest i a (by simpa using h)

theorem getD_set_ne :
    ∀ (l : List Node) (i j : Nat) (a : Node), i ≠ j →
      (l.set i a).getD j default = l.getD j default
  | [], _, _, _, _ => rfl
  | _ :: _, 0, 0, _, h => absurd rfl h
  | _ :: _, 0, _ + 1, _, _ => rfl
  | _ :: _, _ + 1, 0, _, _ => rfl
  | _ :: rest, i + 1, j + 1, a, h =>
    getD_set_ne rest i j a fun e => h (by rw [e])

theorem h_cost_calculate_fields (n target : Node) :
    (n.h_cost_calculate target).2.position = n.position ∧
      (n.h_cost_calculate target).2.parent = n.parent ∧
      (n.h_cost_calculate target).2.g_cost = n.g_cost := by
  unfold Node.h_cost_calculate
  cases hh : n.h_cost <;> simp

theorem set_g_cost_fields (n parentNode : Node) (parentIdx thisIdx : Nat)
    (conns : List Connection) :
    (Node.set_g_cost n parentNode parentIdx thisIdx conns).position = n.position ∧
      (Node.set_g_cost n parentNode parentIdx thisIdx conns).h_cost = n.h_cost ∧
      (Node.set_g_cost n parentNode parentIdx thisIdx conns).parent = some parentIdx := by
  unfold Node.set_g_cost
  exact ⟨rfl, rfl, rfl⟩

theorem selectMinGo_spec (nodes : List Node) (Q : Nat → Nat → Prop) :
    ∀ (l : List Nat) (i : Nat) (acc : Option (Nat × Nat)),
      (∀ j x, acc = some (j, x) → Q j x) →
      (∀ k, k < l.length → Q (i + k) (l.getD k 0)) →
      (selectMinGo nodes l i acc = none → acc = none ∧ l = []) ∧
        (∀ j x, selectMinGo nodes l i acc = some (j, x) → Q j x) := by
  intro l
  induction l with
  | nil =>
    intro i acc hacc _
    exact ⟨fun h => ⟨h, rfl⟩, fun j x h => hacc j x h⟩
  | cons el rest ih =>
    intro i acc hacc hl
    have hQ0 : Q i el := by
      have := hl 0 (by simp)
      simpa using this
    have hrest : ∀ k, k < rest.length → Q (i + 1 + k) (rest.getD k 0) := by
      intro k hk
      have := hl (k + 1) (by simpa using Nat.succ_lt_succ hk)
      have harith : i + (k + 1) = i + 1 + k := by omega
      rw [harith] at this
      exact this
    have hacc2 : ∀ j x,
        (match acc with
          | some (j0, prev) =>
            if optLt (Node.fCost (nodes.getD prev default)) (Node.fCost (nodes.getD el default))
            then some (j0, prev) else some (i, el)
          | none => some (i, el)) = some (j, x) → Q j x := by
      intro j x h
      cases acc with
      | none =>
        dsimp only at h
        cases h
        exact hQ0
      | some p =>
        obtain ⟨j0, prev⟩ := p
        dsimp only at h
        split_ifs at h
        · cases h
          exact hacc _ _ rfl
        · cases h
          exact hQ0
    have := ih (i + 1) _ hacc2 hrest
    refine ⟨fun h => ?_, fun j x h => ?_⟩
    · have h2 := (this.1) (by rw [← h]; rfl)
      refine absurd h2.1 ?_
      cases acc with
      | none => simp
      | some p =>
        obtain ⟨j0, prev⟩ := p
        dsimp only
        split_ifs <;> simp
    · exact this.2 j x (by rw [← h]; rfl)

theorem selectMin_eq_none {nodes : List Node} {l : List Nat} :
    selectMin nodes l = none → l = [] := by
  intro h
  have := (selectMinGo_spec nodes (fun j x => j < l.length ∧ l.getD j 0 = x) l 0 none
    (by intro j x hx; cases hx)
    (by intro k hk; exact ⟨by simpa using hk, by simp⟩)).1 h
  exact this.2

theorem selectMin_some_spec {nodes : List Node} {l : List Nat} {ci cur : Nat}
    (h : selectMin nodes l = some (ci, cur)) : ci < l.length ∧ l.getD ci 0 = cur := by
  exact (selectMinGo_spec nodes (fun j x => j < l.length ∧ l.getD j 0 = x) l 0 none
    (by intro j x hx; cases hx)
    (by intro k hk; exact ⟨by simpa using hk, by simp⟩)).2 ci cur h

theorem perm_getD_cons_eraseIdx :
    ∀ (l : List Nat) (i : Nat), i < l.length → l.Perm (l.getD i 0 :: l.eraseIdx i)
  | [], i, h => absurd h (by simp)
  | a :: rest, 0, _ => by simp
  | a :: rest, i + 1, h => by
    have hi : i < rest.length := by simpa using h
    have ih := perm_getD_cons_eraseIdx rest i hi
    have h1 : (a :: rest).Perm (a :: (rest.getD i 0 :: rest.eraseIdx i)) := ih.cons a
    have h2 : (a :: (rest.getD i 0 :: rest.eraseIdx i)).Perm
        (rest.getD i 0 :: (a :: rest.eraseIdx i)) := List.Perm.swap _ _ _
    exact (h1.trans h2)

theorem relaxOne_props (conns : List Connection) (target : Node) (closed2 : List Nat)
    (currentIdx : Nat) (st : List Node × List Nat) (nb : Nat) (hnb : nb < st.1.length) :
    (relaxOne conns target closed2 currentIdx st nb).1.length = st.1.length ∧
      (∀ i, i ≠ nb →
        (relaxOne conns target closed2 currentIdx st nb).1.getD i default =
          st.1.getD i default) ∧
      ((relaxOne conns target closed2 currentIdx st nb).1.getD nb default).position =
        (st.1.getD nb default).position ∧
      (((relaxOne conns target closed2 currentIdx st nb).1.getD nb default).parent =
          (st.1.getD nb default).parent ∨
        (((relaxOne conns target closed2 currentIdx st nb).1.getD nb default).parent =
            some currentIdx ∧ nb ∉ closed2)) ∧
      ((relaxOne conns target closed2 currentIdx st nb).2 = st.2 ∨
        ((relaxOne conns target closed2 currentIdx st nb).2 = st.2 ++ [nb] ∧ nb ∉ st.2 ∧
          nb ∉ closed2 ∧
          ((relaxOne conns target closed2 currentIdx st nb).1.getD nb default).parent =
            some currentIdx)) ∧
      (nb ∈ closed2 ∨ nb ∈ (relaxOne conns target closed2 currentIdx st nb).2) := by
  by_cases h1 : nb ∈ closed2
  · have hres : relaxOne conns target closed2 currentIdx st nb = st := by
      simp only [relaxOne, if_pos h1]
    rw [hres]
    exact ⟨rfl, fun i _ => rfl, rfl, Or.inl rfl, Or.inl rfl, Or.inl h1⟩
  · by_cases h2 : (st.1.getD nb default).g_cost = none ∨
        (st.1.getD nb default).g_cost.getD 0 >
          (st.1.getD currentIdx default).g_cost.getD 0 +
            ((st.1.getD currentIdx default).position -
              (st.1.getD nb default).position).length ∨
        ¬(nb ∈ st.2)
    · by_cases h3 : nb ∈ st.2
      · have hres : relaxOne conns target closed2 currentIdx st nb =
            (st.1.set nb (Node.set_g_cost (st.1.getD nb default)
              (st.1.getD currentIdx default) currentIdx nb conns), st.2) := by
          simp only [relaxOne, if_neg h1]
          rw [if_pos h2, if_neg (not_not_intro h3)]
        rw [hres]
        have hget := getD_set_self st.1 nb (Node.set_g_cost (st.1.getD nb default)
          (st.1.getD currentIdx default) currentIdx nb conns) hnb
        have hfields := set_g_cost_fields (st.1.getD nb default)
          (st.1.getD currentIdx default) currentIdx nb conns
        refine ⟨List.length_set st.1 _ _, ?_, ?_, ?_, Or.inl rfl, Or.inr h3⟩
        · intro i hi
          exact getD_set_ne st.1 nb i _ (Ne.symm hi)
        · rw [hget]
          exact hfields.1
        · rw [hget]
          exact Or.inr ⟨hfields.2.2, h1⟩
      · have hres : relaxOne conns target closed2 currentIdx st nb =
            ((st.1.set nb (Node.set_g_cost (st.1.getD nb default)
                (st.1.getD currentIdx default) currentIdx nb conns)).set nb
              (Node.h_cost_calculate
                ((st.1.set nb (Node.set_g_cost (st.1.getD nb default)
                  (st.1.getD currentIdx default) currentIdx nb conns)).getD nb default)
                target).2,
             st.2 ++ [nb]) := by
          simp only [relaxOne, if_neg h1]
          rw [if_pos h2, if_pos h3]
        rw [hres]
        have hlen1 : (st.1.set nb (Node.set_g_cost (st.1.getD nb default)
            (st.1.getD currentIdx default) currentIdx nb conns)).length = st.1.length :=
          List.length_set st.1 _ _
        have hget1 := getD_set_self st.1 nb (Node.set_g_cost (st.1.getD nb default)
          (st.1.getD currentIdx default) currentIdx nb conns) hnb
        have hget2 := getD_set_self (st.1.set nb (Node.set_g_cost (st.1.getD nb default)
            (st.1.getD currentIdx default) currentIdx nb conns)) nb
          (Node.h_cost_calculate
            ((st.1.set nb (Node.set_g_cost (st.1.getD nb default)
              (st.1.getD currentIdx default) currentIdx nb conns)).getD nb default)
            target).2 (by rw [hlen1]; exact hnb)
        have hh := h_cost_calculate_fields
          ((st.1.set nb (Node.set_g_cost (st.1.getD nb default)
            (st.1.getD currentIdx default) currentIdx nb conns)).getD nb default) target
        have hfields := set_g_cost_fields (st.1.getD nb default)
          (st.1.getD currentIdx default) currentIdx nb conns
        have hparent : (((st.1.set nb (Node.set_g_cost (st.1.getD nb default)
            (st.1.getD currentIdx default) currentIdx nb conns)).set nb
              (Node.h_cost_calculate
                ((st.1.set nb (Node.set_g_cost (st.1.getD nb default)
                  (st.1.getD currentIdx default) currentIdx nb conns)).getD nb default)
                target).2).getD nb default).parent = some currentIdx := by
          rw [hget2, hh.2.1, hget1, hfields.2.2]
        refine ⟨?_, ?_, ?_, Or.inr ⟨hparent, h1⟩, Or.inr ⟨rfl, h3, h1, hparent⟩,
          Or.inr (List.mem_append_right _ (by simp))⟩
        · rw [List.length_set, List.length_set]
        · intro i hi
          rw [getD_set_ne _ nb i _ (Ne.symm hi), getD_set_ne _ nb i _ (Ne.symm hi)]
        · rw [hget2, hh.1, hget1, hfields.1]
    · have hres : relaxOne conns target closed2 currentIdx st nb = st := by
        simp only [relaxOne, if_neg h1]
        rw [if_neg h2]
      have h3 : nb ∈ st.2 := by
        by_contra hc
        exact h2 (Or.inr (Or.inr hc))
      rw [hres]
      exact ⟨rfl, fun i _ => rfl, rfl, Or.inl rfl, Or.inl rfl, Or.inr h3⟩

theorem relaxFold_props (conns : List Connection) (target : Node) (closed2 : List Nat)
    (currentIdx : Nat) :
    ∀ (nbs : List Nat) (st : List Node × List Nat),
      (∀ x ∈ nbs, x < st.1.length) →
      st.2.Nodup → (∀ x ∈ st.2, x ∉ closed2) →
      ((nbs.foldl (fun s nb => relaxOne conns target closed2 currentIdx s nb) st).1.length =
          st.1.length ∧
        (∀ i, ((nbs.foldl (fun s nb => relaxOne conns target closed2 currentIdx s nb)
            st).1.getD i default).position = (st.1.getD i default).position) ∧
        (∀ i, ((nbs.foldl (fun s nb => relaxOne conns target closed2 currentIdx s nb)
              st).1.getD i default).parent = (st.1.getD i default).parent ∨
          (((nbs.foldl (fun s nb => relaxOne conns target closed2 currentIdx s nb)
              st).1.getD i default).parent = some currentIdx ∧ i ∉ closed2)) ∧
        (∀ x ∈ st.2,
          x ∈ (nbs.foldl (fun s nb => relaxOne conns target closed2 currentIdx s nb) st).2) ∧
        (∀ x ∈ (nbs.foldl (fun s nb => relaxOne conns target closed2 currentIdx s nb) st).2,
          x ∈ st.2 ∨ (x ∈ nbs ∧ x ∉ closed2 ∧
            ((nbs.foldl (fun s nb => relaxOne conns target closed2 currentIdx s nb)
              st).1.getD x default).parent = some currentIdx)) ∧
        (nbs.foldl (fun s nb => relaxOne conns target closed2 currentIdx s nb) st).2.Nodup ∧
        (∀ x ∈ (nbs.foldl (fun s nb => relaxOne conns target closed2 currentIdx s nb) st).2,
          x ∉ closed2) ∧
        (∀ nb ∈ nbs, nb ∈ closed2 ∨
          nb ∈ (nbs.foldl (fun s nb => relaxOne conns target closed2 currentIdx s nb) st).2)) := by
  intro nbs
  induction nbs with
  | nil =>
    intro st _ hnodup hdisj
    exact ⟨rfl, fun i => rfl, fun i => Or.inl rfl, fun x hx => hx,
      fun x hx => Or.inl hx, hnodup, hdisj, by simp⟩
  | cons nb nbs' ih =>
    intro st hbound hnodup hdisj
    have hnb : nb < st.1.length := hbound nb (by simp)
    obtain ⟨p1, p2, p3, p4, p5, p6⟩ :=
      relaxOne_props conns target closed2 currentIdx st nb hnb
    have hnodup1 : (relaxOne conns target closed2 currentIdx st nb).2.Nodup := by
      rcases p5 with h | ⟨he, hn, _, _⟩
      · rw [h]; exact hnodup
      · rw [he, List.nodup_append]
        exact ⟨hnodup, List.nodup_singleton nb, by simpa using hn⟩
    have hdisj1 : ∀ x ∈ (relaxOne conns target closed2 currentIdx st nb).2, x ∉ closed2 := by
      rcases p5 with h | ⟨he, _, hc, _⟩
      · rw [h]; exact hdisj
      · rw [he]
        intro x hx
        rcases List.mem_append.1 hx with hx | hx
        · exact hdisj x hx
        · rw [List.mem_singleton.1 hx]
          exact hc
    have hbound1 : ∀ x ∈ nbs', x < (relaxOne conns target closed2 currentIdx st nb).1.length := by
      intro x hx
      rw [p1]
      exact hbound x (by simp [hx])
    obtain ⟨q1, q2, q3, q4, q5, q6, q7, q8⟩ :=
      ih (relaxOne conns target closed2 currentIdx st nb) hbound1 hnodup1 hdisj1
    have hsub1 : ∀ x ∈ st.2, x ∈ (relaxOne conns target closed2 currentIdx st nb).2 := by
      intro x hx
      rcases p5 with h | ⟨he, _, _, _⟩
      · rw [h]; exact hx
      · rw [he]; exact List.mem_append_left _ hx
    have hgetD1 : ∀ i, ((relaxOne conns target closed2 currentIdx st nb).1.getD i
        default).position = (st.1.getD i default).position := by
      intro i
      by_cases hi : i = nb
      · rw [hi]; exact p3
      · rw [p2 i hi]
    refine ⟨?_, ?_, ?_, ?_, ?_, q6, q7, ?_⟩
    · rw [List.foldl_cons, q1, p1]
    · intro i
      rw [List.foldl_cons, q2 i, hgetD1 i]
    · intro i
      rw [List.foldl_cons]
      rcases q3 i with h | h
      · rw [h]
        by_cases hi : i = nb
        · subst hi
          rcases p4 with h4 | h4
          · exact Or.inl h4
          · exact Or.inr h4
        · rw [p2 i hi]
          exact Or.inl rfl
      · exact Or.inr h
    · intro x hx
      rw [List.foldl_cons]
      exact q4 x (hsub1 x hx)
    · intro x hx
      rw [List.foldl_cons] at hx
      rcases q5 x hx with h | ⟨hm, hc, hp⟩
      · rcases p5 with h5 | ⟨he, _, hc5, hp5⟩
        · rw [h5] at h
          exact Or.inl h
        · rw [he] at h
          rcases List.mem_append.1 h with h | h
          · exact Or.inl h
          · rw [List.mem_singleton.1 h]
            refine Or.inr ⟨by simp, hc5, ?_⟩
            rcases q3 nb with hq | hq
            · rw [List.foldl_cons, hq]
              exact hp5
            · rw [List.foldl_cons]
              exact hq.1
      · exact Or.inr ⟨by simp [hm], hc, by rw [List.foldl_cons]; exact hp⟩
    · intro y hy
      rcases List.mem_cons.1 hy with rfl | hy'
      · rcases p6 with h | h
        · exact Or.inl h
        · rw [List.foldl_cons]
          exact Or.inr (q4 y h)
      · rw [List.foldl_cons]
        exact q8 y hy'

theorem mem_take_idx {l : List Nat} {k j : Nat} (h : j ∈ l.take k) :
    ∃ m, m < k ∧ m < l.length ∧ l.getD m 0 = j := by
  obtain ⟨m, hm, hget⟩ := List.mem_iff_getElem.1 h
  have hm1 : m < k := lt_of_lt_of_le hm (by rw [List.length_take]; exact min_le_left _ _)
  have hm2 : m < l.length := lt_of_lt_of_le hm (by rw [List.length_take]; exact min_le_right _ _)
  refine ⟨m, hm1, hm2, ?_⟩
  have ht : (l.take k)[m] = l[m] := List.getElem_take l
  rw [List.getD_eq_getElem l 0 hm2, ← ht]
  exact hget

/-- Walking parent pointers from the element at rank `k` of the closed list
ends at the start node after at most `k` steps, because every non-start
closed node's parent sits strictly earlier in the closed list. -/
theorem reconstruct_ok (nodes : List Node) (startIdx : Nat) (closed2 : List Nat)
    (hstartparent : (nodes.getD startIdx default).parent = none)
    (hrank : ∀ k, k < closed2.length → closed2.getD k 0 ≠ startIdx →
      ∃ j ∈ closed2.take k, (nodes.getD (closed2.getD k 0) default).parent = some j) :
    ∀ k, k < closed2.length → ∀ fuel, k < fuel → ∀ acc : List Node, acc ≠ [] →
      acc.getLast? = some (nodes.getD (closed2.getD k 0) default) →
      ∃ tailN, reconstructGo nodes startIdx fuel (closed2.getD k 0) acc =
          .path ((acc ++ tailN).reverse) ∧
        (acc ++ tailN).getLast? = some (nodes.getD startIdx default) := by
  intro k
  induction k using Nat.strong_induction_on with
  | _ k ih =>
    intro hk fuel hfuel acc hne hlast
    cases fuel with
    | zero => exact absurd hfuel (by omega)
    | succ f =>
      by_cases hi : closed2.getD k 0 = startIdx
      · refine ⟨[], ?_, ?_⟩
        · have hstep : reconstructGo nodes startIdx (f + 1) (closed2.getD k 0) acc =
              .path acc.reverse := by
            rw [reconstructGo, hi, hstartparent]
            simp
          rw [hstep]
          rw [List.append_nil]
        · rw [List.append_nil, hlast, hi]
      · obtain ⟨j, hjmem, hjparent⟩ := hrank k hk hi
        obtain ⟨m, hmk, hml, hmj⟩ := mem_take_idx hjmem
        have hstep : reconstructGo nodes startIdx (f + 1) (closed2.getD k 0) acc =
            reconstructGo nodes startIdx f j (acc ++ [nodes.getD j default]) := by
          rw [reconstructGo, hjparent]
        obtain ⟨tailN, htail, hlast2⟩ := ih m hmk hml f (by omega)
          (acc ++ [nodes.getD j default]) (by simp)
          (by rw [List.getLast?_concat, hmj])
        rw [hmj] at htail
        refine ⟨[nodes.getD j default] ++ tailN, ?_, ?_⟩
        · rw [hstep, htail, List.append_assoc]
        · rw [← List.append_assoc]
          exact hlast2

theorem getD_concat_length : ∀ (l : List Nat) (a : Nat), (l ++ [a]).getD l.length 0 = a
  | [], a => rfl
  | _ :: rest, a => getD_concat_length rest a

theorem getD_append_lt : ∀ (l l2 : List Nat) (k : Nat), k < l.length →
    (l ++ l2).getD k 0 = l.getD k 0
  | [], _, k, h => absurd h (by simp)
  | _ :: _, _, 0, _ => rfl
  | _ :: rest, l2, k + 1, h => getD_append_lt rest l2 k (by simpa using h)

theorem mem_neighbours_stops :
    ∀ (conns : List Connection) (i v : Nat), v ∈ neighbours conns i → v ∈ stopsOf conns := by
  intro conns
  induction conns with
  | nil => intro i v h; simp [neighbours] at h
  | cons c rest ih =>
    intro i v h
    rw [neighbours] at h
    unfold stopsOf
    by_cases hc : c.start = i
    · rw [if_pos hc] at h
      rcases List.mem_cons.1 h with rfl | h
      · simp
      · simp only [List.map_cons, List.mem_cons]
        exact Or.inr (ih i v h)
    · rw [if_neg hc] at h
      simp only [List.map_cons, List.mem_cons]
      exact Or.inr (ih i v h)

theorem nodup_length_le_of_bound {l : List Nat} {n : Nat} (hnd : l.Nodup)
    (hb : ∀ x ∈ l, x < n) : l.length ≤ n := by
  have hsub : l ⊆ List.range n := fun x hx => List.mem_range.2 (hb x hx)
  have := (hnd.subperm hsub).length_le
  simpa using this

theorem nodup_length_le_of_subset {l L : List Nat} (hnd : l.Nodup) (hb : ∀ x ∈ l, x ∈ L) :
    l.length ≤ L.length :=
  (hnd.subperm fun x hx => hb x hx).length_le

/-- If the end node is not yet closed and some open-or-closed node reaches
it, the open list is nonempty (the first non-closed node along the path is
open, by the closure-coverage invariant). -/
theorem open_nonempty_of_reach {conns : List Connection}
    {openL closed : List Nat}
    (hcover : ∀ u ∈ closed, ∀ v ∈ neighbours conns u, v ∈ openL ∨ v ∈ closed) :
    ∀ u v, Reaches conns u v → v ∉ closed → (u ∈ openL ∨ u ∈ closed) → openL ≠ [] := by
  intro u v hr
  induction hr with
  | refl a =>
    intro hv hu hnil
    rcases hu with h | h
    · rw [hnil] at h
      cases h
    · exact hv h
  | head hedge _ ih =>
    intro hv hu hnil
    rcases hu with h | h
    · rw [hnil] at h
      cases h
    · rcases hcover _ h _ hedge with h2 | h2
      · exact ih hv (Or.inl h2) hnil
      · exact ih hv (Or.inr h2) hnil

/-- The main loop of `pathfind` reaches the end node and reconstructs a
route from start to end, whenever the invariant holds, the fuel covers the
remaining closed-list capacity, and some open-or-closed node reaches the
end node in the connection graph. -/
theorem astar_loop_ok (conns : List Connection) (target : Node) (startIdx endIdx n : Nat)
    (posns : List Vector) (hconn : ∀ c ∈ conns, c.stop < n) :
    ∀ (fuel : Nat) (nodes : List Node) (openL closed : List Nat),
      StateOK conns startIdx endIdx n posns nodes openL closed →
      conns.length + 2 ≤ fuel + closed.length →
      (∃ u, (u ∈ openL ∨ u ∈ closed) ∧ Reaches conns u endIdx) →
      ∃ finalNodes route,
        astarGo conns target startIdx endIdx fuel nodes openL closed = .ok finalNodes route ∧
          route ≠ [] ∧
          (route.map Node.position).head? = some (posns.getD startIdx default) ∧
          (route.map Node.position).getLast? = some (posns.getD endIdx default) := by
  intro fuel
  induction fuel with
  | zero =>
    intro nodes openL closed hS hfuel _
    have hle : closed.length ≤ conns.length + 1 := by
      have := nodup_length_le_of_subset hS.hnodupC hS.hvalidC
      simpa [stopsOf] using this
    omega
  | succ f ih =>
    intro nodes openL closed hS hfuel hreach
    obtain ⟨u, hu, hur⟩ := hreach
    have hopen_ne : openL ≠ [] :=
      open_nonempty_of_reach hS.hcover u endIdx hur hS.hendC hu
    cases hsel : selectMin nodes openL with
    | none => exact absurd (selectMin_eq_none hsel) hopen_ne
    | some pair =>
      obtain ⟨ci, current⟩ := pair
      obtain ⟨hci, hcur⟩ := selectMin_some_spec hsel
      have hperm : openL.Perm (current :: openL.eraseIdx ci) := by
        rw [← hcur]
        exact perm_getD_cons_eraseIdx openL ci hci
      have hcurmem : current ∈ openL := hperm.mem_iff.2 (by simp)
      have hcons_nodup : (current :: openL.eraseIdx ci).Nodup := hperm.nodup_iff.1 hS.hnodupO
      have hcur_notin_erase : current ∉ openL.eraseIdx ci := (List.nodup_cons.1 hcons_nodup).1
      have herase_nodup : (openL.eraseIdx ci).Nodup := (List.nodup_cons.1 hcons_nodup).2
      have herase_sub : ∀ x ∈ openL.eraseIdx ci, x ∈ openL := by
        intro x hx
        exact hperm.mem_iff.2 (List.mem_cons_of_mem _ hx)
      have hcur_notclosed : current ∉ closed := hS.hdisj current hcurmem
      have hclosed2_nodup : (closed ++ [current]).Nodup := by
        rw [List.nodup_append]
        refine ⟨hS.hnodupC, List.nodup_singleton current, ?_⟩
        intro x hx
        simp only [List.mem_singleton]
        intro he
        rw [he] at hx
        exact hcur_notclosed hx
      have hclosed_len_n : closed.length ≤ n := nodup_length_le_of_bound hS.hnodupC hS.hboundC
      have hcur_n : current < n := hS.hboundO current hcurmem
      -- the new element of the closed list with its rank
      have hgetD_new : (closed ++ [current]).getD closed.length 0 = current :=
        getD_concat_length closed current
      have hrank2 : ∀ k, k < (closed ++ [current]).length →
          (closed ++ [current]).getD k 0 ≠ startIdx →
          ∃ j ∈ (closed ++ [current]).take k,
            (nodes.getD ((closed ++ [current]).getD k 0) default).parent = some j := by
        intro k hk hkne
        rcases Nat.lt_or_ge k closed.length with hlt | hge
        · rw [getD_append_lt closed [current] k hlt] at hkne ⊢
          obtain ⟨j, hjm, hjp⟩ := hS.hrank k hlt hkne
          refine ⟨j, ?_, hjp⟩
          rw [List.take_append_of_le_length hlt.le]
          exact hjm
        · have hkeq : k = closed.length := by
            have : k < closed.length + 1 := by simpa using hk
            omega
          subst hkeq
          rw [hgetD_new] at hkne ⊢
          obtain ⟨j, hjm, hjp⟩ := hS.hopenparent current hcurmem hkne
          refine ⟨j, ?_, hjp⟩
          rw [List.take_left]
          exact hjm
      by_cases hce : current = endIdx
      · -- final iteration: reconstruct
        have hrec := reconstruct_ok nodes startIdx (closed ++ [current]) hS.hstartparent hrank2
          closed.length (by simp) (nodes.length + 1)
          (by rw [hS.hlen]; omega) [nodes.getD current default] (by simp)
          (by rw [hgetD_new]; rfl)
        rw [hgetD_new] at hrec
        obtain ⟨tailN, htail, hlastN⟩ := hrec
        refine ⟨nodes, (([nodes.getD current default] ++ tailN).reverse), ?_, ?_, ?_, ?_⟩
        · rw [astarGo, hsel]
          dsimp only
          rw [if_pos hce, htail]
        · simp
        · rw [List.head?_map, List.head?_reverse, hlastN]
          rw [show Option.map Node.position (some (nodes.getD startIdx default)) =
            some ((nodes.getD startIdx default).position) from rfl]
          rw [hS.hpos startIdx]
        · rw [List.getLast?_map, List.getLast?_reverse]
          simp only [List.singleton_append, List.head?_cons]
          rw [show Option.map Node.position (some (nodes.getD current default)) =
            some ((nodes.getD current default).position) from rfl]
          rw [hS.hpos current, hce]
      · -- relaxation iteration
        have hbound_nbs : ∀ x ∈ neighbours conns current, x < (nodes, openL.eraseIdx ci).1.length := by
          intro x hx
          have hxs := mem_neighbours_stops conns current x hx
          obtain ⟨c, hcm, hcs⟩ := List.mem_map.1 hxs
          rw [hS.hlen, ← hcs]
          exact hconn c hcm
        have hdisj2 : ∀ x ∈ (nodes, openL.eraseIdx ci).2, x ∉ closed ++ [current] := by
          intro x hx hmem
          rcases List.mem_append.1 hmem with hmem | hmem
          · exact hS.hdisj x (herase_sub x hx) hmem
          · rw [List.mem_singleton.1 hmem] at hx
            exact hcur_notin_erase hx
        obtain ⟨q1, q2, q3, q4, q5, q6, q7, q8⟩ :=
          relaxFold_props conns target (closed ++ [current]) current
            (neighbours conns current) (nodes, openL.eraseIdx ci) hbound_nbs herase_nodup hdisj2
        set st2 := (neighbours conns current).foldl
          (fun s nb => relaxOne conns target (closed ++ [current]) current s nb)
          (nodes, openL.eraseIdx ci) with hst2def
        have hstart2 : startIdx ∈ closed ++ [current] := by
          rcases hS.hstart with h | ⟨hO, hC⟩
          · exact List.mem_append_left _ h
          · rw [hO] at hcurmem
            rw [List.mem_singleton.1 hcurmem]
            exact List.mem_append_right _ (by simp)
        have hparents_pres : ∀ i ∈ closed ++ [current],
            (st2.1.getD i default).parent = (nodes.getD i default).parent := by
          intro i hi
          rcases q3 i with h | ⟨_, hni⟩
          · exact h
          · exact absurd hi hni
        have hSnew : StateOK conns startIdx endIdx n posns st2.1 st2.2 (closed ++ [current]) := by
          refine ⟨?_, ?_, q6, hclosed2_nodup, q7, ?_, ?_, ?_, ?_, ?_, ?_, ?_, ?_, ?_, ?_⟩
          · rw [q1]
            exact hS.hlen
          · intro i
            rw [q2 i]
            exact hS.hpos i
          · -- hvalidO
            intro i hi
            rcases q5 i hi with h | ⟨hm, _, _⟩
            · exact hS.hvalidO i (herase_sub i h)
            · exact List.mem_cons_of_mem _ (mem_neighbours_stops conns current i hm)
          · -- hvalidC
            intro i hi
            rcases List.mem_append.1 hi with h | h
            · exact hS.hvalidC i h
            · rw [List.mem_singleton.1 h]
              exact hS.hvalidO current hcurmem
          · -- hboundO
            intro i hi
            rcases q5 i hi with h | ⟨hm, _, _⟩
            · exact hS.hboundO i (herase_sub i h)
            · obtain ⟨c, hcm, hcs⟩ := List.mem_map.1 (mem_neighbours_stops conns current i hm)
              rw [← hcs]
              exact hconn c hcm
          · -- hboundC
            intro i hi
            rcases List.mem_append.1 hi with h | h
            · exact hS.hboundC i h
            · rw [List.mem_singleton.1 h]
              exact hcur_n
          · -- hendC
            intro hmem
            rcases List.mem_append.1 hmem with h | h
            · exact hS.hendC h
            · exact hce (List.mem_singleton.1 h).symm
          · exact Or.inl hstart2
          · -- hstartparent
            rw [hparents_pres startIdx hstart2]
            exact hS.hstartparent
          · -- hopenparent
            intro i hi hine
            rcases q5 i hi with h | ⟨_, _, hp⟩
            · obtain ⟨j, hjm, hjp⟩ := hS.hopenparent i (herase_sub i h) hine
              rcases q3 i with hq | ⟨hq, _⟩
              · exact ⟨j, List.mem_append_left _ hjm, by rw [hq]; exact hjp⟩
              · exact ⟨current, List.mem_append_right _ (by simp), hq⟩
            · exact ⟨current, List.mem_append_right _ (by simp), hp⟩
          · -- hrank
            intro k hk hkne
            obtain ⟨j, hjm, hjp⟩ := hrank2 k hk hkne
            refine ⟨j, hjm, ?_⟩
            have hcmem : (closed ++ [current]).getD k 0 ∈ closed ++ [current] := by
              rw [List.getD_eq_getElem _ 0 hk]
              exact List.getElem_mem hk
            rw [hparents_pres _ hcmem]
            exact hjp
          · -- hcover
            intro w hw v hv
            rcases List.mem_append.1 hw with h | h
            · rcases hS.hcover w h v hv with h2 | h2
              · rcases List.mem_cons.1 (hperm.mem_iff.1 h2) with h3 | h3
                · exact Or.inr (List.mem_append_right _ (by rw [h3]; simp))
                · exact Or.inl (q4 v h3)
              · exact Or.inr (List.mem_append_left _ h2)
            · rw [List.mem_singleton.1 h] at hv
              rcases q8 v hv with h2 | h2
              · exact Or.inr h2
              · exact Or.inl h2
        have hfuel2 : conns.length + 2 ≤ f + (closed ++ [current]).length := by
          rw [List.length_append]
          simp only [List.length_singleton]
          omega
        have hreach2 : ∃ u2, (u2 ∈ st2.2 ∨ u2 ∈ closed ++ [current]) ∧
            Reaches conns u2 endIdx := by
          refine ⟨u, ?_, hur⟩
          rcases hu with h | h
          · rcases List.mem_cons.1 (hperm.mem_iff.1 h) with h2 | h2
            · exact Or.inr (List.mem_append_right _ (by rw [h2]; simp))
            · exact Or.inl (q4 u h2)
          · exact Or.inr (List.mem_append_left _ h)
        obtain ⟨finalNodes, route, hrun, hne, hh, hl⟩ := ih st2.1 st2.2 (closed ++ [current])
          hSnew hfuel2 hreach2
        refine ⟨finalNodes, route, ?_, hne, hh, hl⟩
        rw [astarGo, hsel]
        dsimp only
        rw [if_neg hce]
        exact hrun

theorem buildConnections_mem (positions : List Vector) (w : Vector → Vector → ℝ) :
    ∀ (input : List (Nat × Nat)) (acc : List Connection) (c : Connection),
      c ∈ buildConnections positions w input acc →
      c ∈ acc ∨ (c.start, c.stop) ∈ input := by
  intro input
  induction input with
  | nil =>
    intro acc c h
    exact Or.inl h
  | cons q rest ih =>
    intro acc c h
    obtain ⟨a, b⟩ := q
    rw [buildConnections] at h
    split_ifs at h with hdup
    · rcases ih acc c h with h2 | h2
      · exact Or.inl h2
      · exact Or.inr (List.mem_cons_of_mem _ h2)
    · rcases ih _ c h with h2 | h2
      · rcases List.mem_append.1 h2 with h3 | h3
        · exact Or.inl h3
        · rw [List.mem_singleton.1 h3]
          exact Or.inr (by simp)
      · exact Or.inr (List.mem_cons_of_mem _ h2)

theorem pathfinder_new_bounds {positions : List Vector} {connections : List (Nat × Nat)}
    {w : Vector → Vector → ℝ} {p : Pathfinder}
    (hp : Pathfinder.new positions connections w = some p) :
    ∀ c ∈ p.connections, c.start < positions.length ∧ c.stop < positions.length := by
  have hc := (pathfinder_new_nodes hp).2.1
  unfold Pathfinder.new at hp
  split_ifs at hp with hval
  push_neg at hval
  intro c hcm
  rw [hc] at hcm
  rcases buildConnections_mem positions w connections [] c hcm with h | h
  · cases h
  · have := hval.2 (c.start, c.stop) h
    omega

theorem getD_map_new (positions : List Vector) (i : Nat) (h : i < positions.length) :
    (positions.map Node.new).getD i default = Node.new (positions.getD i default) := by
  rw [List.getD_eq_getElem _ _ (by simpa using h), List.getD_eq_getElem _ _ h, List.getElem_map]

theorem map_new_getD_pos (positions : List Vector) (i : Nat) :
    ((positions.map Node.new).getD i default).position = positions.getD i default := by
  rcases Nat.lt_or_ge i positions.length with h | h
  · rw [getD_map_new positions i h]
    rfl
  · rw [List.getD_eq_default _ _ (by simpa using h), List.getD_eq_default _ _ h]
    rfl

/-- C1: for every graph accepted by `Pathfinder::new` whose connection
graph has a directed path from `start` to `end` (with both indices in
range), `pathfind(start, end)` terminates without panicking, stores the
route in `best_route`, and the stored route is a non-empty node sequence
whose first position is the start node's position and whose last position
is the end node's position. -/
theorem pathfind_reaches_end (positions : List Vector) (connections : List (Nat × Nat))
    (w : Vector → Vector → ℝ) (p : Pathfinder)
    (hp : Pathfinder.new positions connections w = some p)
    (startIdx endIdx : Nat)
    (hs : startIdx < positions.length) (he : endIdx < positions.length)
    (hreach : Reaches p.connections startIdx endIdx) :
    ∃ p2 route, p.pathfind startIdx endIdx = .ok p2 route ∧
      p2.best_route = some route ∧
      p2.bestRoute = some (route.map Node.position) ∧
      route ≠ [] ∧
      (route.map Node.position).head? = some (positions.getD startIdx default) ∧
      (route.map Node.position).getLast? = some (positions.getD endIdx default) := by
  obtain ⟨hn, hc, hb⟩ := pathfinder_new_nodes hp
  have hcb := pathfinder_new_bounds hp
  have hconn : ∀ c ∈ p.connections, c.stop < positions.length := fun c hcm => (hcb c hcm).2
  have hlen0 : p.nodes.length = positions.length := by rw [hn, List.length_map]
  have hsn : startIdx < p.nodes.length := by rw [hlen0]; exact hs
  set nodes1 := p.nodes.set startIdx
    { p.nodes.getD startIdx default with g_cost := some 0 } with hn1
  have hlen1 : nodes1.length = positions.length := by
    rw [hn1, List.length_set, hlen0]
  have hsn1 : startIdx < nodes1.length := by rw [hlen1]; exact hs
  set target := nodes1.getD endIdx default with htgt
  set nodes2 := nodes1.set startIdx
    (Node.h_cost_calculate (nodes1.getD startIdx default) target).2 with hn2
  have hlen2 : nodes2.length = positions.length := by
    rw [hn2, List.length_set, hlen1]
  have hpos0 : ∀ i, (nodes2.getD i default).position = positions.getD i default := by
    intro i
    by_cases hi : i = startIdx
    · subst hi
      rw [hn2, getD_set_self _ _ _ hsn1]
      rw [(h_cost_calculate_fields _ _).1]
      rw [hn1, getD_set_self _ _ _ hsn]
      show (p.nodes.getD i default).position = _
      rw [hn, map_new_getD_pos]
    · rw [hn2, getD_set_ne _ _ _ _ fun e => hi e.symm]
      rw [hn1, getD_set_ne _ _ _ _ fun e => hi e.symm]
      rw [hn, map_new_getD_pos]
  have hsp : (nodes2.getD startIdx default).parent = none := by
    rw [hn2, getD_set_self _ _ _ hsn1]
    rw [(h_cost_calculate_fields _ _).2.1]
    rw [hn1, getD_set_self _ _ _ hsn]
    show (p.nodes.getD startIdx default).parent = none
    rw [hn, getD_map_new positions startIdx hs]
    rfl
  have hS0 : StateOK p.connections startIdx endIdx positions.length positions
      nodes2 [startIdx] [] := by
    refine ⟨hlen2, hpos0, by simp, by simp, by simp, by simp, by simp, ?_, by simp,
      by simp, Or.inr ⟨rfl, rfl⟩, hsp, ?_, ?_, by simp⟩
    · intro i hi
      rw [List.mem_singleton.1 hi]
      exact hs
    · intro i hi hine
      exact absurd (List.mem_singleton.1 hi) hine
    · intro k hk
      simp at hk
  obtain ⟨finalNodes, route, hrun, hne, hh, hl⟩ :=
    astar_loop_ok p.connections target startIdx endIdx positions.length positions
      (fun c hcm => hconn c hcm) (p.connections.length + 2) nodes2 [startIdx] [] hS0
      (by simp) ⟨startIdx, Or.inl (by simp), hreach⟩
  have hstep : p.pathfind startIdx endIdx =
      match astarGo p.connections target startIdx endIdx (p.connections.length + 2)
          nodes2 [startIdx] [] with
      | .panicked => .panicked
      | .fuelOut => .fuelOut
      | .ok finalNodes route =>
        .ok { p with nodes := finalNodes, best_route := some route } route := rfl
  refine ⟨{ p with nodes := finalNodes, best_route := some route }, route, ?_, rfl, rfl,
    hne, hh, hl⟩
  rw [hstep, hrun]

/-- C1 (witness): a two-node graph with the single connection `0 → 1`. -/
theorem pathfind_reaches_end_witness :
    (Pathfinder.new [⟨0, 0⟩, ⟨1, 0⟩] [(0, 1)] (fun _ _ => 1) =
        some ⟨[Node.new ⟨0, 0⟩, Node.new ⟨1, 0⟩], [⟨0, 1, 1⟩], none⟩ ∧
      Reaches ([⟨0, 1, 1⟩] : List Connection) 0 1) ∧
      ∃ p2 route,
        Pathfinder.pathfind ⟨[Node.new ⟨0, 0⟩, Node.new ⟨1, 0⟩], [⟨0, 1, 1⟩], none⟩ 0 1 =
            .ok p2 route ∧
          p2.best_route = some route ∧
          p2.bestRoute = some (route.map Node.position) ∧
          route ≠ [] ∧
          (route.map Node.position).head? =
            some (([⟨0, 0⟩, ⟨1, 0⟩] : List Vector).getD 0 default) ∧
          (route.map Node.position).getLast? =
            some (([⟨0, 0⟩, ⟨1, 0⟩] : List Vector).getD 1 default) := by
  have hnew : Pathfinder.new [(⟨0, 0⟩ : Vector), ⟨1, 0⟩] [(0, 1)] (fun _ _ => 1) =
      some ⟨[Node.new ⟨0, 0⟩, Node.new ⟨1, 0⟩], [⟨0, 1, 1⟩], none⟩ := by
    norm_num [Pathfinder.new, buildConnections]
  have hr : Reaches ([⟨0, 1, 1⟩] : List Connection) 0 1 :=
    Reaches.head (by norm_num [neighbours]) (Reaches.refl 1)
  exact ⟨⟨hnew, hr⟩,
    pathfind_reaches_end [⟨0, 0⟩, ⟨1, 0⟩] [(0, 1)] (fun _ _ => 1) _ hnew 0 1
      (by norm_num) (by norm_num) hr⟩

end Across
